import Mathlib

/-!
Verification development for a Sudoku solver that reduces an N×N grid
(N a perfect square, values 0..N-1, -1 = empty) to an exact cover problem
and solves it with Knuth's Algorithm X over a dancing-links style
cover structure.

The embedding models the solver state abstractly but faithfully: the
dancing-links structure (and equivalently the shrinking boolean matrix of
the Algorithm X variant) is determined at every reachable moment by the
ordered list of live candidate rows and the ordered list of live constraint
columns over the fixed 0/1 matrix `exactCoverProblem`.  A live column's
node ring is the ordered sublist of live rows intersecting it, its
`columnSize` is `colCount`, and the active-column ring is `liveCols` in
order.  Cover records the removed rows/columns together with their
positions (exactly what `removeRowsAndColumnsForGivenRow` stores in
`deletedRows` / `deletedColumns`), and uncover re-inserts them at the
recorded positions (`restoreRowsAndColumnsForGivenRow`).  The recursive
search takes fuel as an explicit argument; `none` signals only that fuel
ran out, and the fuel-adequacy theorems below show the bound used by the
solver never runs out, which renders the C++ program's unbounded recursion.

Source files rendered: `main_dancing_links.cpp` (primary control flow:
column-emptiness success test, minimum-size column choice, cover row /
recurse / uncover row loop) and `main_algorithm_x.cpp` (explicit
deleted-rows/columns undo records of `removeRowsAndColumnsForGivenRow` /
`restoreRowsAndColumnsForGivenRowAlgorithmX`).
-/

namespace SudokuDLX

/-- Value component of candidate index `i`: `candidate = i % SUDOKU_SIZE`. -/
def valOf (n i : Nat) : Nat := i % n

/-- Grid row of candidate index `i`: `row = i / SUDOKU_SIZE_SQUARED`. -/
def rowOf (n i : Nat) : Nat := i / (n * n)

/-- Grid column of candidate index `i`: `column = (i / SUDOKU_SIZE) % SUDOKU_SIZE`. -/
def colOf (n i : Nat) : Nat := (i / n) % n

/-- Box of candidate `i`: `box = (row / SQUARE_ROOT) * SQUARE_ROOT + column / SQUARE_ROOT`. -/
def boxOf (n s i : Nat) : Nat := (rowOf n i / s) * s + (colOf n i / s)

/-- Constraint column for "cell (row, column) is filled", `0*N² + row*N + column`. -/
def cellCol (n i : Nat) : Nat := rowOf n i * n + colOf n i

/-- Constraint column for "row has the value", `1*N² + row*N + candidate`. -/
def rowValCol (n i : Nat) : Nat := n * n + rowOf n i * n + valOf n i

/-- Constraint column for "column has the value", `2*N² + column*N + candidate`. -/
def colValCol (n i : Nat) : Nat := 2 * (n * n) + colOf n i * n + valOf n i

/-- Constraint column for "box has the value", `3*N² + box*N + candidate`. -/
def boxValCol (n s i : Nat) : Nat := 3 * (n * n) + boxOf n s i * n + valOf n i

/-- The four constraint columns into which candidate row `i` is wired by
`initializeExactCoverProblem` / `initializeMatrix`. -/
def colsList (n s i : Nat) : List Nat :=
  [cellCol n i, rowValCol n i, colValCol n i, boxValCol n s i]

/-- Entry `(i, j)` of the exact cover matrix `EXACT_COVER_PROBLEM`: the
initialization sets exactly the four columns of `colsList` in row `i`. -/
def exactCoverProblem (n s i j : Nat) : Bool := (colsList n s i).contains j

/-- Observable state of the cover structure: the ordered list of live
candidate rows and of live (active) constraint columns.  These two lists
determine the entire doubly-linked structure of `main_dancing_links.cpp`
(ring order and node membership) and the shrinking matrix of
`main_algorithm_x.cpp` (whose row records keep `numberInOriginalSequence`). -/
structure CoverState where
  liveRows : List Nat
  liveCols : List Nat
deriving DecidableEq, Repr

/-- The structure as built by `initializeDoublyLinkedList`: all `N³`
candidate rows and all `4N²` constraint columns are live. -/
def initializeStructure (n : Nat) : CoverState :=
  ⟨List.range (n * n * n), List.range (4 * (n * n))⟩

/-- Live-count of column `j` (the `columnSize` field of a column node):
number of live rows with a 1 in column `j`. -/
def colCount (n s : Nat) (st : CoverState) (j : Nat) : Nat :=
  (st.liveRows.filter (fun i => exactCoverProblem n s i j)).length

/-- Undo record of one cover operation: the removed rows and columns, each
with the position it occupied before removal (the `numberInOriginalSequence`
bookkeeping of `removeRowsAndColumnsForGivenRow`). -/
structure UndoRec where
  delRows : List (Nat × Nat)
  delCols : List (Nat × Nat)
deriving DecidableEq, Repr

/-- Elements of `l` satisfying `p`, paired with their position in `l`. -/
def removedIdx {α : Type} : List α → (α → Bool) → List (Nat × α)
  | [], _ => []
  | x :: xs, p =>
    if p x then (0, x) :: (removedIdx xs p).map (fun q => (q.1 + 1, q.2))
    else (removedIdx xs p).map (fun q => (q.1 + 1, q.2))

/-- Elements of `l` not satisfying `p` (what survives a deletion pass). -/
def keepNot {α : Type} (l : List α) (p : α → Bool) : List α :=
  l.filter (fun x => !(p x))

/-- Cover for a chosen candidate row `r` (`removeRowsAndColumnsForGivenRow`,
equivalently `coverColumn` applied to all four columns of `r` in the
dancing-links version): every live column in which `r` has a 1 is removed,
and every live row with a 1 in one of those columns is removed.  The undo
record retains removed rows/columns with their original positions. -/
def removeRowsAndColumnsForGivenRow (n s : Nat) (st : CoverState) (r : Nat) :
    CoverState × UndoRec :=
  let hitCol : Nat → Bool := fun j => exactCoverProblem n s r j
  let delCols := removedIdx st.liveCols hitCol
  let hitRow : Nat → Bool := fun i =>
    st.liveCols.any (fun j => hitCol j && exactCoverProblem n s i j)
  let delRows := removedIdx st.liveRows hitRow
  (⟨keepNot st.liveRows hitRow, keepNot st.liveCols hitCol⟩, ⟨delRows, delCols⟩)

/-- Re-insert recorded items at their recorded positions, in the order they
were recorded (increasing positions, as in the restore loops). -/
def restoreIdx {α : Type} (base : List α) (items : List (Nat × α)) : List α :=
  items.foldl (fun acc q => acc.insertIdx q.1 q.2) base

/-- Uncover (`restoreRowsAndColumnsForGivenRowAlgorithmX`, equivalently the
`uncoverColumn` loop of the dancing-links version): re-insert first the
removed rows, then the removed columns, at their recorded positions. -/
def restoreRowsAndColumnsForGivenRow (st : CoverState) (u : UndoRec) : CoverState :=
  ⟨restoreIdx st.liveRows u.delRows, restoreIdx st.liveCols u.delCols⟩

/-- Minimum-live-count column selection (`chooseProperColumnAlgorithmX`, and
the `chosenColumn` scan of `search` in the dancing-links version): start
from the first active column and replace only on strictly smaller count, so
ties keep the earliest column. -/
def chooseProperColumn (n s : Nat) (st : CoverState) : Nat :=
  match st.liveCols with
  | [] => 0
  | c :: rest =>
    rest.foldl (fun best cur =>
      if colCount n s st cur < colCount n s st best then cur else best) c

/-- Result of the recursive search, together with the cover structure and
the `CURRENT_SOLUTION` stack as they stand at the moment of return.
`succeeded` renders the C++ return value `false` (solution found),
`exhausted` the return value `true` (no solution in this branch). -/
inductive SearchOutcome where
  | succeeded (st : CoverState) (sol : List Nat)
  | exhausted (st : CoverState) (sol : List Nat)
deriving DecidableEq, Repr

/-- The row loop of `search`: for each candidate row of the chosen column,
push it on the solution stack, cover it, recurse (`rec`); on success
propagate immediately; on failure uncover using the recorded undo data on
the state the recursive call returned, pop the stack, and continue. -/
def searchRows (n s : Nat) (rec : CoverState → List Nat → Option SearchOutcome)
    (st : CoverState) (sol : List Nat) : List Nat → Option SearchOutcome
  | [] => some (SearchOutcome.exhausted st sol)
  | r :: rs =>
    let pr := removeRowsAndColumnsForGivenRow n s st r
    match rec pr.1 (sol ++ [r]) with
    | none => none
    | some (SearchOutcome.succeeded st2 sol2) => some (SearchOutcome.succeeded st2 sol2)
    | some (SearchOutcome.exhausted st2 sol2) =>
      searchRows n s rec (restoreRowsAndColumnsForGivenRow st2 pr.2) sol2.dropLast rs

/-- The recursive `search`: success as soon as no active column remains
(`headNode->rightNode == headNode`), otherwise try every live row of the
minimum-count column in order.  `fuel` bounds the recursion depth; `none`
means the bound was hit (the C++ recursion is unbounded; adequacy theorems
below discharge the bound). -/
def search (n s : Nat) : Nat → CoverState → List Nat → Option SearchOutcome
  | 0, _, _ => none
  | fuel + 1, st, sol =>
    if st.liveCols.isEmpty then some (SearchOutcome.succeeded st sol)
    else
      searchRows n s (search n s fuel) st sol
        (st.liveRows.filter (fun i => exactCoverProblem n s i (chooseProperColumn n s st)))

/-- The preloader's matching scan: the first live candidate row whose
identifier equals `(value, row, column)` and which still has a 1 in some
live column.  This is the row found by `updateDoublyLinkedList`'s traversal
of the live structure, and by the scan in `convertSudokuGridToAlgorithmX`
(whose condition `sequence[j] && Candidate == input && Row == inputR &&
Column == inputC` is the same conjunction; the identifier tests are placed
first here, which does not change the result). -/
def findClueRow (n s : Nat) (st : CoverState) (r c : Nat) (v : Int) : Option Nat :=
  st.liveRows.find? (fun i =>
    ((valOf n i : Int) == v) && (rowOf n i == r) && (colOf n i == c) &&
    st.liveCols.any (fun j => exactCoverProblem n s i j))

/-- State of the preload pass: the cover structure, the committed candidate
rows, and the writes made into `SUDOKU_SOLUTION` so far. -/
structure PreloadState where
  st : CoverState
  rowsP : List Nat
  writes : List (Nat × Int)
deriving DecidableEq, Repr

/-- Preload one grid cell: an empty cell (`-1`) never matches; a filled cell
is matched against the live candidates, and on a match the row is covered
permanently and `SUDOKU_SOLUTION[row*N + column]` records the value.  When
no live candidate matches (conflicting clue), nothing happens — the clue is
silently skipped, exactly as in both source preloaders. -/
def updateForClue (n s : Nat) (p : PreloadState) (r c : Nat) (v : Int) : PreloadState :=
  if v == -1 then p
  else
    match findClueRow n s p.st r c v with
    | none => p
    | some i =>
      ⟨(removeRowsAndColumnsForGivenRow n s p.st i).1,
       p.rowsP ++ [i],
       p.writes ++ [(rowOf n i * n + colOf n i, v)]⟩

/-- Grid cells in row-major order, the order in which clues are committed
(the dancing-links scan also commits clues cell by cell in this order,
because the cell-constraint columns come first in the column ring). -/
def cellsOrder (n : Nat) : List (Nat × Nat) :=
  (List.range n).flatMap (fun r => (List.range n).map (fun c => (r, c)))

/-- The preload pass over the whole input grid (`updateDoublyLinkedList` /
`convertSudokuGridToAlgorithmX`). -/
def updateDoublyLinkedList (n s : Nat) (input : Nat → Nat → Int) : PreloadState :=
  (cellsOrder n).foldl (fun p rc => updateForClue n s p rc.1 rc.2 (input rc.1 rc.2))
    ⟨initializeStructure n, [], []⟩

/-- Initial contents of `SUDOKU_SOLUTION`: the aggregate initializer
`{ -1 }` sets element 0 to -1 and zero-fills the rest. -/
def initialSolutionArray (n : Nat) : List Int :=
  (List.range (n * n)).map (fun k => if k = 0 then -1 else 0)

/-- Apply in-place array writes `SUDOKU_SOLUTION[k] = v` in order. -/
def applyWrites (a : List Int) (ws : List (Nat × Int)) : List Int :=
  ws.foldl (fun acc w => acc.set w.1 w.2) a

/-- The writes performed at the success leaf of `search`: for each row of
`CURRENT_SOLUTION`, `SUDOKU_SOLUTION[row*N + column] = candidate`. -/
def solWrites (n : Nat) (sol : List Nat) : List (Nat × Int) :=
  sol.map (fun i => (rowOf n i * n + colOf n i, (valOf n i : Int)))

/-- Externally visible outcome: the printed solved grid, or the
"No Solution Found" signal. -/
inductive EngineResult where
  | solvedGrid (g : List Int)
  | noSolution
deriving DecidableEq, Repr

/-- The whole pipeline of `sudokuSolver` (file reading excluded): build the
structure, preload the clues, search, and on success assemble the output
array from the preload writes and the solution stack writes.  The fuel
passed is one more than the number of live columns after preload, which the
adequacy theorems show is never exhausted. -/
def sudokuSolver (n s : Nat) (input : Nat → Nat → Int) : Option EngineResult :=
  let p := updateDoublyLinkedList n s input
  match search n s (p.st.liveCols.length + 1) p.st [] with
  | none => none
  | some (SearchOutcome.succeeded _ sol) =>
    some (EngineResult.solvedGrid
      (applyWrites (applyWrites (initialSolutionArray n) p.writes) (solWrites n sol)))
  | some (SearchOutcome.exhausted _ _) => some EngineResult.noSolution

/-- Value printed for grid cell `(r, c)` from the output array. -/
def gridCellVal (n : Nat) (g : List Int) (r c : Nat) : Int :=
  g.getD (r * n + c) (-1)

/-- Number of clues (non-`-1` cells) in the input grid. -/
def clueCount (n : Nat) (input : Nat → Nat → Int) : Nat :=
  ((cellsOrder n).filter (fun rc => !(input rc.1 rc.2 == -1))).length

/-- Two candidate rows conflict when they share one of their four
constraint columns (choosing both would double-cover that column). -/
def conflict (n s : Nat) (i r : Nat) : Bool :=
  (colsList n s i).any (fun j => exactCoverProblem n s r j)

/-- The rows left live after committing exactly the rows of `sol`. -/
def liveRowsFor (n s : Nat) (sol : List Nat) : List Nat :=
  (List.range (n * n * n)).filter (fun i => !(sol.any (fun rr => conflict n s i rr)))

/-- The columns left live after committing exactly the rows of `sol`. -/
def liveColsFor (n s : Nat) (sol : List Nat) : List Nat :=
  (List.range (4 * (n * n))).filter (fun j => !(sol.any (fun rr => exactCoverProblem n s rr j)))

/-- Reachability invariant of the cover structure: the state is exactly the
residual problem of a set `sol` of pairwise non-conflicting committed
candidate rows. -/
def Inv (n s : Nat) (sol : List Nat) (st : CoverState) : Prop :=
  st.liveRows = liveRowsFor n s sol ∧
  st.liveCols = liveColsFor n s sol ∧
  (∀ r ∈ sol, r < n * n * n) ∧
  sol.Pairwise (fun a b => conflict n s a b = false)

/-- A set of committed rows forming an exact cover: all in range, pairwise
non-conflicting, and hitting every constraint column. -/
def ExactCover (n s : Nat) (sol : List Nat) : Prop :=
  (∀ r ∈ sol, r < n * n * n) ∧
  sol.Pairwise (fun a b => conflict n s a b = false) ∧
  (∀ j, j < 4 * (n * n) → ∃ i ∈ sol, exactCoverProblem n s i j = true)

/-- A contradictory 4×4 input: cells `(0,0)` and `(0,1)` both hold value 0
(the spec's example of two identical clue values in one row); the other 14
clues are mutually consistent and extend to a full solution. -/
def badClues : List Int := [0, 0, 2, 3, 2, 3, 0, 1, 1, 0, 3, 2, 3, 2, 1, 0]

/-- The contradictory 4×4 grid as an input function. -/
def badInput : Nat → Nat → Int := fun r c => badClues.getD (r * 4 + c) (-1)

/-- A consistent but unsatisfiable 4×4 input: row 0 starts `0 1 2 _` and the
clue `(1,3) = 3` leaves no value for cell `(0,3)`. -/
def unsatInput : Nat → Nat → Int := fun r c =>
  if r = 0 && c = 0 then 0
  else if r = 0 && c = 1 then 1
  else if r = 0 && c = 2 then 2
  else if r = 1 && c = 3 then 3
  else -1

/-- The empty input grid (all cells `-1`). -/
def emptyInput : Nat → Nat → Int := fun _ _ => -1

/-! Arithmetic facts about the candidate indexing. -/

theorem exactCoverProblem_iff_mem {n s i j : Nat} :
    exactCoverProblem n s i j = true ↔ j ∈ colsList n s i := by
  simp [exactCoverProblem, List.contains, List.elem_iff]

theorem digits_unique {n a b a2 b2 : Nat} (hb : b < n) (hb2 : b2 < n)
    (h : a * n + b = a2 * n + b2) : a = a2 ∧ b = b2 := by
  have h1 : (b + a * n) % n = b := by
    rw [Nat.add_mul_mod_self_right, Nat.mod_eq_of_lt hb]
  have h2 : (b2 + a2 * n) % n = b2 := by
    rw [Nat.add_mul_mod_self_right, Nat.mod_eq_of_lt hb2]
  have h3 : (b + a * n) / n = a := by
    have hn : 0 < n := Nat.lt_of_le_of_lt (Nat.zero_le _) hb
    rw [Nat.add_mul_div_right _ _ hn, Nat.div_eq_of_lt hb, Nat.zero_add]
  have h4 : (b2 + a2 * n) / n = a2 := by
    have hn : 0 < n := Nat.lt_of_le_of_lt (Nat.zero_le _) hb
    rw [Nat.add_mul_div_right _ _ hn, Nat.div_eq_of_lt hb2, Nat.zero_add]
  have he : b + a * n = b2 + a2 * n := by omega
  constructor
  · rw [← h3, ← h4, he]
  · rw [← h1, ← h2, he]

theorem valOf_encode {n r c v : Nat} (hv : v < n) :
    valOf n (v + n * c + n * n * r) = v := by
  have : v + n * c + n * n * r = v + (c + n * r) * n := by ring
  rw [valOf, this, Nat.add_mul_mod_self_right, Nat.mod_eq_of_lt hv]

theorem colOf_encode {n r c v : Nat} (hv : v < n) (hc : c < n) :
    colOf n (v + n * c + n * n * r) = c := by
  have hn : 0 < n := Nat.lt_of_le_of_lt (Nat.zero_le _) hv
  have h1 : v + n * c + n * n * r = v + (c + n * r) * n := by ring
  have h2 : (v + n * c + n * n * r) / n = c + n * r := by
    rw [h1, Nat.add_mul_div_right _ _ hn, Nat.div_eq_of_lt hv, Nat.zero_add]
  rw [colOf, h2]
  have : c + n * r = c + r * n := by ring
  rw [this, Nat.add_mul_mod_self_right, Nat.mod_eq_of_lt hc]

theorem rowOf_encode {n r c v : Nat} (hv : v < n) (hc : c < n) :
    rowOf n (v + n * c + n * n * r) = r := by
  have hn : 0 < n := Nat.lt_of_le_of_lt (Nat.zero_le _) hv
  have hlt : v + n * c < n * n := by
    calc v + n * c < n + n * c := by omega
    _ = n * (c + 1) := by ring
    _ ≤ n * n := Nat.mul_le_mul_left n hc
  have h1 : v + n * c + n * n * r = (v + n * c) + r * (n * n) := by ring
  rw [rowOf, h1, Nat.add_mul_div_right _ _ (Nat.mul_pos hn hn),
    Nat.div_eq_of_lt hlt, Nat.zero_add]

theorem encode_decode (n i : Nat) :
    n * n * rowOf n i + n * colOf n i + valOf n i = i := by
  have h1 : n * (i / n) + i % n = i := Nat.div_add_mod i n
  have h2 : n * ((i / n) / n) + (i / n) % n = i / n := Nat.div_add_mod (i / n) n
  have h3 : (i / n) / n = i / (n * n) := Nat.div_div_eq_div_mul i n n
  rw [rowOf, colOf, valOf, ← h3]
  calc n * n * (i / n / n) + n * (i / n % n) + i % n
      = n * (n * (i / n / n) + i / n % n) + i % n := by ring
    _ = n * (i / n) + i % n := by rw [h2]
    _ = i := h1

theorem valOf_lt {n i : Nat} (hn : 0 < n) : valOf n i < n := Nat.mod_lt _ hn

theorem colOf_lt {n i : Nat} (hn : 0 < n) : colOf n i < n := Nat.mod_lt _ hn

theorem rowOf_lt {n i : Nat} (hi : i < n * n * n) : rowOf n i < n :=
  Nat.div_lt_of_lt_mul hi

theorem grid_ix_lt {s a b : Nat} (ha : a < s) (hb : b < s) : a * s + b < s * s := by
  calc a * s + b < a * s + s := by omega
  _ = (a + 1) * s := by ring
  _ ≤ s * s := Nat.mul_le_mul_right s ha

theorem boxOf_lt {n s i : Nat} (hs : s * s = n) (hi : i < n * n * n) :
    boxOf n s i < n := by
  have hn : 0 < n := by
    rcases Nat.eq_zero_or_pos n with h | h
    · subst h; exact absurd hi (by omega)
    · exact h
  have hr : rowOf n i < n := rowOf_lt hi
  have hc : colOf n i < n := colOf_lt hn
  have h1 : rowOf n i / s < s := Nat.div_lt_of_lt_mul (by rw [hs]; exact hr)
  have h2 : colOf n i / s < s := Nat.div_lt_of_lt_mul (by rw [hs]; exact hc)
  rw [boxOf]
  calc (rowOf n i / s) * s + colOf n i / s < s * s := grid_ix_lt h1 h2
  _ = n := hs

theorem cellCol_lt {n i : Nat} (hi : i < n * n * n) : cellCol n i < n * n := by
  have hn : 0 < n := by
    rcases Nat.eq_zero_or_pos n with h | h
    · subst h; exact absurd hi (by omega)
    · exact h
  exact grid_ix_lt (rowOf_lt hi) (colOf_lt hn)

theorem rowValCol_range {n i : Nat} (hi : i < n * n * n) :
    n * n ≤ rowValCol n i ∧ rowValCol n i < 2 * (n * n) := by
  have hn : 0 < n := by
    rcases Nat.eq_zero_or_pos n with h | h
    · subst h; exact absurd hi (by omega)
    · exact h
  have := grid_ix_lt (rowOf_lt hi) (valOf_lt (i := i) hn)
  rw [rowValCol]; omega

theorem colValCol_range {n i : Nat} (hi : i < n * n * n) :
    2 * (n * n) ≤ colValCol n i ∧ colValCol n i < 3 * (n * n) := by
  have hn : 0 < n := by
    rcases Nat.eq_zero_or_pos n with h | h
    · subst h; exact absurd hi (by omega)
    · exact h
  have := grid_ix_lt (colOf_lt (i := i) hn) (valOf_lt (i := i) hn)
  rw [colValCol]; omega

theorem boxValCol_range {n s i : Nat} (hs : s * s = n) (hi : i < n * n * n) :
    3 * (n * n) ≤ boxValCol n s i ∧ boxValCol n s i < 4 * (n * n) := by
  have hn : 0 < n := by
    rcases Nat.eq_zero_or_pos n with h | h
    · subst h; exact absurd hi (by omega)
    · exact h
  have h1 := boxOf_lt hs hi
  have h2 := valOf_lt (i := i) hn
  have := grid_ix_lt (s := n) h1 h2
  rw [boxValCol]; omega

theorem colsList_bounds {n s i : Nat} (hs : s * s = n) (hi : i < n * n * n) :
    ∀ j ∈ colsList n s i, j < 4 * (n * n) := by
  have h1 := cellCol_lt hi
  have h2 := rowValCol_range hi
  have h3 := colValCol_range hi
  have h4 := boxValCol_range hs hi
  intro j hj
  simp [colsList] at hj
  rcases hj with h | h | h | h <;> omega

theorem colsList_nodup {n s i : Nat} (hs : s * s = n) (hi : i < n * n * n) :
    (colsList n s i).Nodup := by
  have h1 := cellCol_lt hi
  have h2 := rowValCol_range hi
  have h3 := colValCol_range hi
  have h4 := boxValCol_range hs hi
  simp [colsList]
  omega

theorem mem_cell_eq {n s i j : Nat} (hs : s * s = n) (hi : i < n * n * n)
    (hj : j < n * n) (h : j ∈ colsList n s i) : j = cellCol n i := by
  have h2 := rowValCol_range hi
  have h3 := colValCol_range hi
  have h4 := boxValCol_range hs hi
  simp [colsList] at h
  rcases h with h | h | h | h <;> omega

theorem mem_rowVal_eq {n s i j : Nat} (hs : s * s = n) (hi : i < n * n * n)
    (hj1 : n * n ≤ j) (hj2 : j < 2 * (n * n)) (h : j ∈ colsList n s i) :
    j = rowValCol n i := by
  have h1 := cellCol_lt hi
  have h3 := colValCol_range hi
  have h4 := boxValCol_range hs hi
  simp [colsList] at h
  rcases h with h | h | h | h <;> omega

theorem mem_colVal_eq {n s i j : Nat} (hs : s * s = n) (hi : i < n * n * n)
    (hj1 : 2 * (n * n) ≤ j) (hj2 : j < 3 * (n * n)) (h : j ∈ colsList n s i) :
    j = colValCol n i := by
  have h1 := cellCol_lt hi
  have h2 := rowValCol_range hi
  have h4 := boxValCol_range hs hi
  simp [colsList] at h
  rcases h with h | h | h | h <;> omega

theorem mem_boxVal_eq {n s i j : Nat} (hs : s * s = n) (hi : i < n * n * n)
    (hj1 : 3 * (n * n) ≤ j) (h : j ∈ colsList n s i) : j = boxValCol n s i := by
  have h1 := cellCol_lt hi
  have h2 := rowValCol_range hi
  have h3 := colValCol_range hi
  simp [colsList] at h
  rcases h with h | h | h | h <;> omega

/-! Round trip of cover and uncover. -/

theorem restoreIdx_shift {α : Type} (x : α) (base : List α) (items : List (Nat × α)) :
    restoreIdx (x :: base) (items.map (fun q => (q.1 + 1, q.2))) = x :: restoreIdx base items := by
  induction items generalizing base with
  | nil => rfl
  | cons q qs ih =>
    simp only [restoreIdx, List.map_cons, List.foldl_cons] at *
    rw [List.insertIdx_succ_cons]
    exact ih _

theorem restoreIdx_removedIdx {α : Type} (l : List α) (p : α → Bool) :
    restoreIdx (keepNot l p) (removedIdx l p) = l := by
  induction l with
  | nil => rfl
  | cons x xs ih =>
    cases h : p x with
    | true =>
      have hk : keepNot (x :: xs) p = keepNot xs p := by
        simp [keepNot, List.filter_cons, h]
      have hr : removedIdx (x :: xs) p
          = (0, x) :: (removedIdx xs p).map (fun q => (q.1 + 1, q.2)) := by
        simp [removedIdx, h]
      rw [hk, hr]
      show restoreIdx (List.insertIdx 0 x (keepNot xs p))
          ((removedIdx xs p).map (fun q => (q.1 + 1, q.2))) = x :: xs
      rw [List.insertIdx_zero, restoreIdx_shift, ih]
    | false =>
      have hk : keepNot (x :: xs) p = x :: keepNot xs p := by
        simp [keepNot, List.filter_cons, h]
      have hr : removedIdx (x :: xs) p
          = (removedIdx xs p).map (fun q => (q.1 + 1, q.2)) := by
        simp [removedIdx, h]
      rw [hk, hr, restoreIdx_shift, ih]

theorem cover_uncover (n s : Nat) (st : CoverState) (r : Nat) :
    restoreRowsAndColumnsForGivenRow (removeRowsAndColumnsForGivenRow n s st r).1
      (removeRowsAndColumnsForGivenRow n s st r).2 = st := by
  cases st with
  | mk rows cols =>
    simp only [removeRowsAndColumnsForGivenRow, restoreRowsAndColumnsForGivenRow]
    rw [restoreIdx_removedIdx, restoreIdx_removedIdx]

/-! Generic facts about the recursive search. -/

theorem searchRows_exhausted_eq {n s : Nat}
    {rec : CoverState → List Nat → Option SearchOutcome}
    (hrecE : ∀ st sol st2 sol2,
      rec st sol = some (SearchOutcome.exhausted st2 sol2) → st2 = st ∧ sol2 = sol) :
    ∀ (rows : List Nat) (st : CoverState) (sol : List Nat) (st2 : CoverState)
      (sol2 : List Nat),
      searchRows n s rec st sol rows = some (SearchOutcome.exhausted st2 sol2) →
      st2 = st ∧ sol2 = sol := by
  intro rows
  induction rows with
  | nil =>
    intro st sol st2 sol2 h
    simp only [searchRows, Option.some.injEq, SearchOutcome.exhausted.injEq] at h
    exact ⟨h.1.symm, h.2.symm⟩
  | cons r rs ih =>
    intro st sol st2 sol2 h
    cases hre : rec (removeRowsAndColumnsForGivenRow n s st r).1 (sol ++ [r]) with
    | none => simp only [searchRows, hre] at h; exact absurd h (by simp)
    | some out =>
      cases out with
      | succeeded a b =>
        simp only [searchRows, hre] at h
        exact absurd h (by simp)
      | exhausted a b =>
        simp only [searchRows, hre] at h
        obtain ⟨ha, hb⟩ := hrecE _ _ _ _ hre
        subst ha
        subst hb
        rw [cover_uncover, List.dropLast_concat] at h
        exact ih _ _ _ _ h

theorem search_exhausted_eq (n s : Nat) :
    ∀ (fuel : Nat) (st : CoverState) (sol : List Nat) (st2 : CoverState) (sol2 : List Nat),
      search n s fuel st sol = some (SearchOutcome.exhausted st2 sol2) →
      st2 = st ∧ sol2 = sol := by
  intro fuel
  induction fuel with
  | zero => intro st sol st2 sol2 h; simp [search] at h
  | succ f ih =>
    intro st sol st2 sol2 h
    cases hc : st.liveCols.isEmpty with
    | true =>
      simp only [search, hc, if_true] at h
      exact absurd h (by simp)
    | false =>
      simp only [search, hc, if_false] at h
      exact searchRows_exhausted_eq ih _ _ _ _ _ h

theorem searchRows_succeeded_shape {n s : Nat}
    {rec : CoverState → List Nat → Option SearchOutcome}
    (hrecS : ∀ st sol st2 sol2,
      rec st sol = some (SearchOutcome.succeeded st2 sol2) →
      st2.liveCols = [] ∧ ∃ ext, sol2 = sol ++ ext)
    (hrecE : ∀ st sol st2 sol2,
      rec st sol = some (SearchOutcome.exhausted st2 sol2) → st2 = st ∧ sol2 = sol) :
    ∀ (rows : List Nat) (st : CoverState) (sol : List Nat) (st2 : CoverState)
      (sol2 : List Nat),
      searchRows n s rec st sol rows = some (SearchOutcome.succeeded st2 sol2) →
      st2.liveCols = [] ∧ ∃ ext, sol2 = sol ++ ext := by
  intro rows
  induction rows with
  | nil =>
    intro st sol st2 sol2 h
    simp only [searchRows, Option.some.injEq] at h
    exact absurd h (by simp)
  | cons r rs ih =>
    intro st sol st2 sol2 h
    cases hre : rec (removeRowsAndColumnsForGivenRow n s st r).1 (sol ++ [r]) with
    | none => simp only [searchRows, hre] at h; exact absurd h (by simp)
    | some out =>
      cases out with
      | succeeded a b =>
        simp only [searchRows, hre, Option.some.injEq,
          SearchOutcome.succeeded.injEq] at h
        obtain ⟨ha, hb⟩ := h
        obtain ⟨hcols, ext, hext⟩ := hrecS _ _ _ _ hre
        subst ha
        subst hb
        exact ⟨hcols, [r] ++ ext, by rw [hext, List.append_assoc]⟩
      | exhausted a b =>
        simp only [searchRows, hre] at h
        obtain ⟨ha, hb⟩ := hrecE _ _ _ _ hre
        subst ha
        subst hb
        rw [cover_uncover, List.dropLast_concat] at h
        exact ih _ _ _ _ h

theorem search_succeeded_shape (n s : Nat) :
    ∀ (fuel : Nat) (st : CoverState) (sol : List Nat) (st2 : CoverState) (sol2 : List Nat),
      search n s fuel st sol = some (SearchOutcome.succeeded st2 sol2) →
      st2.liveCols = [] ∧ ∃ ext, sol2 = sol ++ ext := by
  intro fuel
  induction fuel with
  | zero => intro st sol st2 sol2 h; simp [search] at h
  | succ f ih =>
    intro st sol st2 sol2 h
    cases hc : st.liveCols.isEmpty with
    | true =>
      simp only [search, hc, if_true, Option.some.injEq,
        SearchOutcome.succeeded.injEq] at h
      obtain ⟨ha, hb⟩ := h
      subst ha
      subst hb
      exact ⟨List.isEmpty_iff.mp hc, [], by simp⟩
    | false =>
      simp only [search, hc, if_false] at h
      exact searchRows_succeeded_shape ih (search_exhausted_eq n s f) _ _ _ _ _ h

/-! Specification of the minimum-column choice. -/

theorem foldl_min_spec (g : Nat → Nat) :
    ∀ (l : List Nat) (acc r : Nat),
      l.foldl (fun best cur => if g cur < g best then cur else best) acc = r →
      (r = acc ∧ ∀ x ∈ l, g acc ≤ g x) ∨
      (∃ l1 l2, l = l1 ++ r :: l2 ∧ g r < g acc ∧
        (∀ x ∈ l1, g r < g x) ∧ (∀ x ∈ l2, g r ≤ g x)) := by
  intro l
  induction l with
  | nil =>
    intro acc r hr
    left
    exact ⟨hr.symm, by simp⟩
  | cons x xs ih =>
    intro acc r hr
    by_cases hx : g x < g acc
    · rw [List.foldl_cons, if_pos hx] at hr
      rcases ih x r hr with ⟨h1, hmin⟩ | ⟨l1, l2, hdec, hlt, hl1, hl2⟩
      · subst h1
        right
        refine ⟨[], xs, by simp, hx, by simp, hmin⟩
      · right
        refine ⟨x :: l1, l2, ?_, Nat.lt_trans hlt hx, ?_, hl2⟩
        · rw [List.cons_append]
          exact congrArg (x :: ·) hdec
        · intro y hy
          rcases List.mem_cons.mp hy with h | h
          · rw [h]; exact hlt
          · exact hl1 y h
    · rw [List.foldl_cons, if_neg hx] at hr
      rcases ih acc r hr with ⟨h1, hmin⟩ | ⟨l1, l2, hdec, hlt, hl1, hl2⟩
      · left
        refine ⟨h1, ?_⟩
        intro y hy
        rcases List.mem_cons.mp hy with h | h
        · rw [h]; exact Nat.le_of_not_lt hx
        · exact hmin y h
      · right
        refine ⟨x :: l1, l2, ?_, hlt, ?_, hl2⟩
        · rw [List.cons_append]
          exact congrArg (x :: ·) hdec
        · intro y hy
          rcases List.mem_cons.mp hy with h | h
          · rw [h]; exact Nat.lt_of_lt_of_le hlt (Nat.le_of_not_lt hx)
          · exact hl1 y h

theorem chooseProperColumn_spec (n s : Nat) (st : CoverState)
    (hne : st.liveCols ≠ []) :
    ∃ l1 l2, st.liveCols = l1 ++ chooseProperColumn n s st :: l2 ∧
      (∀ x ∈ l1, colCount n s st (chooseProperColumn n s st) < colCount n s st x) ∧
      (∀ x ∈ l2, colCount n s st (chooseProperColumn n s st) ≤ colCount n s st x) := by
  cases hc : st.liveCols with
  | nil => exact absurd hc hne
  | cons c rest =>
    have hch : rest.foldl (fun best cur =>
        if colCount n s st cur < colCount n s st best then cur else best) c
        = chooseProperColumn n s st := by
      simp [chooseProperColumn, hc]
    rcases foldl_min_spec (colCount n s st) rest c _ hch
      with ⟨h1, hmin⟩ | ⟨l1, l2, hdec, hlt, hl1, hl2⟩
    · refine ⟨[], rest, ?_, by simp, ?_⟩
      · rw [List.nil_append, h1]
      · intro y hy
        rw [h1]
        exact hmin y hy
    · refine ⟨c :: l1, l2, ?_, ?_, hl2⟩
      · exact congrArg (c :: ·) hdec
      · intro y hy
        rcases List.mem_cons.mp hy with h | h
        · rw [h]; exact hlt
        · exact hl1 y h

theorem chooseProperColumn_mem (n s : Nat) (st : CoverState)
    (hne : st.liveCols ≠ []) : chooseProperColumn n s st ∈ st.liveCols := by
  obtain ⟨l1, l2, hdec, _, _⟩ := chooseProperColumn_spec n s st hne
  rw [hdec]
  exact List.mem_append_right l1 (List.mem_cons_self _ _)

theorem chooseProperColumn_min (n s : Nat) (st : CoverState)
    (hne : st.liveCols ≠ []) :
    ∀ j ∈ st.liveCols, colCount n s st (chooseProperColumn n s st) ≤ colCount n s st j := by
  obtain ⟨l1, l2, hdec, hl1, hl2⟩ := chooseProperColumn_spec n s st hne
  intro j hj
  rw [hdec] at hj
  rcases List.mem_append.mp hj with h | h
  · exact Nat.le_of_lt (hl1 j h)
  · rcases List.mem_cons.mp h with h | h
    · rw [h]
    · exact hl2 j h

/-! Fuel adequacy: the recursion bound used by the solver is never hit. -/

theorem keepNot_length_lt {α : Type} (l : List α) (p : α → Bool) {c : α}
    (hc : c ∈ l) (hpc : p c = true) : (keepNot l p).length < l.length := by
  induction l with
  | nil => exact absurd hc (List.not_mem_nil c)
  | cons x xs ih =>
    rcases List.mem_cons.mp hc with h | h
    · subst h
      have : (keepNot (c :: xs) p) = keepNot xs p := by
        simp [keepNot, List.filter_cons, hpc]
      rw [this]
      exact Nat.lt_succ_of_le (List.length_filter_le _ _)
    · cases hx : p x with
      | true =>
        have : (keepNot (x :: xs) p) = keepNot xs p := by
          simp [keepNot, List.filter_cons, hx]
        rw [this]
        exact Nat.lt_succ_of_lt (ih h)
      | false =>
        have : (keepNot (x :: xs) p) = x :: keepNot xs p := by
          simp [keepNot, List.filter_cons, hx]
        rw [this]
        exact Nat.succ_lt_succ (ih h)

theorem searchRows_adequate {n s B : Nat}
    {rec : CoverState → List Nat → Option SearchOutcome}
    (hrecA : ∀ st sol, st.liveCols.length < B → rec st sol ≠ none)
    (hrecE : ∀ st sol st2 sol2,
      rec st sol = some (SearchOutcome.exhausted st2 sol2) → st2 = st ∧ sol2 = sol) :
    ∀ (rows : List Nat) (st : CoverState) (sol : List Nat),
      (∀ r ∈ rows, ∃ c ∈ st.liveCols, exactCoverProblem n s r c = true) →
      st.liveCols.length ≤ B →
      searchRows n s rec st sol rows ≠ none := by
  intro rows
  induction rows with
  | nil => intro st sol _ _; simp [searchRows]
  | cons r rs ih =>
    intro st sol hrows hlen
    obtain ⟨c, hcmem, hcr⟩ := hrows r (List.mem_cons_self _ _)
    have hcov : (removeRowsAndColumnsForGivenRow n s st r).1.liveCols.length
        < st.liveCols.length := by
      simp only [removeRowsAndColumnsForGivenRow]
      exact keepNot_length_lt st.liveCols _ hcmem hcr
    cases hre : rec (removeRowsAndColumnsForGivenRow n s st r).1 (sol ++ [r]) with
    | none =>
      exact absurd hre (hrecA _ _ (Nat.lt_of_lt_of_le hcov hlen))
    | some out =>
      cases out with
      | succeeded a b => simp [searchRows, hre]
      | exhausted a b =>
        obtain ⟨ha, hb⟩ := hrecE _ _ _ _ hre
        subst ha
        subst hb
        simp only [searchRows, hre]
        rw [cover_uncover, List.dropLast_concat]
        exact ih st sol (fun r2 h2 => hrows r2 (List.mem_cons_of_mem _ h2)) hlen

theorem search_adequate (n s : Nat) :
    ∀ (fuel : Nat) (st : CoverState) (sol : List Nat),
      st.liveCols.length < fuel → search n s fuel st sol ≠ none := by
  intro fuel
  induction fuel with
  | zero => intro st sol h; omega
  | succ f ih =>
    intro st sol hlen
    cases hc : st.liveCols.isEmpty with
    | true => simp [search, hc]
    | false =>
      simp only [search, hc, if_false]
      have hne : st.liveCols ≠ [] := by
        intro h; rw [h] at hc; simp at hc
      refine searchRows_adequate ih (search_exhausted_eq n s f) _ st sol ?_ ?_
      · intro r hr
        exact ⟨chooseProperColumn n s st, chooseProperColumn_mem n s st hne,
          (List.mem_filter.mp hr).2⟩
      · omega

/-! Conflict relation between candidate rows. -/

theorem conflict_true_iff {n s i r : Nat} :
    conflict n s i r = true ↔
      ∃ j, exactCoverProblem n s i j = true ∧ exactCoverProblem n s r j = true := by
  constructor
  · intro h
    obtain ⟨j, hj, hrj⟩ := List.any_eq_true.mp h
    exact ⟨j, exactCoverProblem_iff_mem.mpr hj, hrj⟩
  · intro ⟨j, hij, hrj⟩
    exact List.any_eq_true.mpr ⟨j, exactCoverProblem_iff_mem.mp hij, hrj⟩

theorem conflict_comm {n s i r : Nat} : conflict n s i r = conflict n s r i := by
  cases h1 : conflict n s i r with
  | true =>
    obtain ⟨j, hij, hrj⟩ := conflict_true_iff.mp h1
    exact (conflict_true_iff.mpr ⟨j, hrj, hij⟩).symm
  | false =>
    cases h2 : conflict n s r i with
    | true =>
      obtain ⟨j, hrj, hij⟩ := conflict_true_iff.mp h2
      rw [← h1]
      exact conflict_true_iff.mpr ⟨j, hij, hrj⟩
    | false => rfl

theorem conflict_self {n s i : Nat} : conflict n s i i = true := by
  refine conflict_true_iff.mpr ⟨cellCol n i, ?_, ?_⟩ <;>
    exact exactCoverProblem_iff_mem.mpr (by simp [colsList])

/-! Membership characterizations of the residual live rows and columns. -/

theorem mem_liveRowsFor {n s : Nat} {sol : List Nat} {i : Nat} :
    i ∈ liveRowsFor n s sol ↔
      i < n * n * n ∧ ∀ rr ∈ sol, conflict n s i rr = false := by
  simp [liveRowsFor, List.mem_filter, List.mem_range, List.any_eq_false]

theorem mem_liveColsFor {n s : Nat} {sol : List Nat} {j : Nat} :
    j ∈ liveColsFor n s sol ↔
      j < 4 * (n * n) ∧ ∀ rr ∈ sol, exactCoverProblem n s rr j = false := by
  simp [liveColsFor, List.mem_filter, List.mem_range, List.any_eq_false]

/-! The invariant is preserved by covering a live row. -/

theorem Inv_init (n s : Nat) : Inv n s [] (initializeStructure n) := by
  refine ⟨?_, ?_, by simp, List.Pairwise.nil⟩
  · simp [initializeStructure, liveRowsFor]
  · simp [initializeStructure, liveColsFor]

theorem live_cols_sub {n s : Nat} (hs : s * s = n) {sol : List Nat} {r : Nat}
    (hr : r ∈ liveRowsFor n s sol) :
    ∀ j ∈ colsList n s r, j ∈ liveColsFor n s sol := by
  obtain ⟨hlt, hnc⟩ := mem_liveRowsFor.mp hr
  intro j hj
  refine mem_liveColsFor.mpr ⟨colsList_bounds hs hlt j hj, ?_⟩
  intro rr hrr
  cases h : exactCoverProblem n s rr j with
  | false => rfl
  | true =>
    have : conflict n s r rr = true := conflict_true_iff.mpr
      ⟨j, exactCoverProblem_iff_mem.mpr hj, h⟩
    rw [hnc rr hrr] at this
    exact absurd this (by simp)

theorem hitRow_eq_conflict {n s : Nat} (hs : s * s = n) {sol : List Nat}
    {st : CoverState} (hCols : st.liveCols = liveColsFor n s sol) {r : Nat}
    (hr : r ∈ liveRowsFor n s sol) (i : Nat) :
    (st.liveCols.any (fun j =>
      exactCoverProblem n s r j && exactCoverProblem n s i j)) = conflict n s i r := by
  cases h : conflict n s i r with
  | true =>
    obtain ⟨j, hij, hrj⟩ := conflict_true_iff.mp h
    refine List.any_eq_true.mpr ⟨j, ?_, by rw [hij, hrj]; rfl⟩
    rw [hCols]
    exact live_cols_sub hs hr j (exactCoverProblem_iff_mem.mp hrj)
  | false =>
    refine List.any_eq_false.mpr ?_
    intro j hj
    cases hrj : exactCoverProblem n s r j with
    | false => simp
    | true =>
      cases hij : exactCoverProblem n s i j with
      | false => simp
      | true =>
        have : conflict n s i r = true := conflict_true_iff.mpr ⟨j, hij, hrj⟩
        rw [h] at this
        exact absurd this (by simp)

theorem Inv_cover {n s : Nat} (hs : s * s = n) {sol : List Nat} {st : CoverState}
    (hInv : Inv n s sol st) {r : Nat} (hr : r ∈ st.liveRows) :
    Inv n s (sol ++ [r]) (removeRowsAndColumnsForGivenRow n s st r).1 := by
  obtain ⟨hRows, hCols, hBound, hPW⟩ := hInv
  rw [hRows] at hr
  obtain ⟨hlt, hnc⟩ := mem_liveRowsFor.mp hr
  refine ⟨?_, ?_, ?_, ?_⟩
  · show keepNot st.liveRows _ = _
    have hpt := hitRow_eq_conflict hs hCols hr
    calc keepNot st.liveRows (fun i => st.liveCols.any (fun j =>
          exactCoverProblem n s r j && exactCoverProblem n s i j))
        = keepNot st.liveRows (fun i => conflict n s i r) := by
          apply List.filter_congr
          intro x _
          show (!(st.liveCols.any (fun j =>
            exactCoverProblem n s r j && exactCoverProblem n s x j)))
            = !(conflict n s x r)
          rw [hpt x]
      _ = liveRowsFor n s (sol ++ [r]) := by
          rw [hRows, keepNot, liveRowsFor, List.filter_filter, liveRowsFor]
          apply List.filter_congr
          intro x _
          simp [List.any_append, Bool.and_comm]
  · show keepNot st.liveCols _ = _
    rw [hCols, keepNot, liveColsFor, List.filter_filter, liveColsFor]
    apply List.filter_congr
    intro x _
    simp [List.any_append, Bool.and_comm]
  · intro rr hrr
    rcases List.mem_append.mp hrr with h | h
    · exact hBound rr h
    · rw [List.mem_singleton.mp h]
      exact hlt
  · rw [List.pairwise_append]
    refine ⟨hPW, List.pairwise_singleton _ _, ?_⟩
    intro a ha b hb
    rw [List.mem_singleton.mp hb]
    rw [conflict_comm]
    exact hnc a ha

/-! The invariant holds after the preload pass, together with the
correspondence between committed rows, recorded writes, and input clues. -/

theorem updateForClue_preserve {n s : Nat} (hs : s * s = n)
    (input : Nat → Nat → Int) {p : PreloadState}
    (hp : Inv n s p.rowsP p.st ∧ p.writes = solWrites n p.rowsP ∧
      ∀ i ∈ p.rowsP, (valOf n i : Int) = input (rowOf n i) (colOf n i))
    (r c : Nat) :
    Inv n s (updateForClue n s p r c (input r c)).rowsP
        (updateForClue n s p r c (input r c)).st ∧
      (updateForClue n s p r c (input r c)).writes
        = solWrites n (updateForClue n s p r c (input r c)).rowsP ∧
      ∀ i ∈ (updateForClue n s p r c (input r c)).rowsP,
        (valOf n i : Int) = input (rowOf n i) (colOf n i) := by
  obtain ⟨hInv, hW, hV⟩ := hp
  rw [updateForClue]
  cases hm1 : input r c == -1 with
  | true => simpa using ⟨hInv, hW, hV⟩
  | false =>
    simp only [Bool.false_eq_true, if_false]
    cases hf : findClueRow n s p.st r c (input r c) with
    | none => exact ⟨hInv, hW, hV⟩
    | some i =>
      have hmem : i ∈ p.st.liveRows := List.mem_of_find?_eq_some hf
      have hpred := List.find?_some hf
      simp only [Bool.and_eq_true, beq_iff_eq] at hpred
      obtain ⟨⟨⟨hval, hrow⟩, hcol⟩, _⟩ := hpred
      refine ⟨Inv_cover hs hInv hmem, ?_, ?_⟩
      · show p.writes ++ [(rowOf n i * n + colOf n i, input r c)] = _
        rw [hW, solWrites, solWrites, List.map_append, List.map_singleton, hval]
      · intro i2 hi2
        rcases List.mem_append.mp hi2 with h | h
        · exact hV i2 h
        · rw [List.mem_singleton.mp h, hval, hrow, hcol]

theorem preload_preserve (n s : Nat) (hs : s * s = n) (input : Nat → Nat → Int) :
    Inv n s (updateDoublyLinkedList n s input).rowsP (updateDoublyLinkedList n s input).st ∧
      (updateDoublyLinkedList n s input).writes
        = solWrites n (updateDoublyLinkedList n s input).rowsP ∧
      ∀ i ∈ (updateDoublyLinkedList n s input).rowsP,
        (valOf n i : Int) = input (rowOf n i) (colOf n i) := by
  rw [updateDoublyLinkedList]
  have hgen : ∀ (l : List (Nat × Nat)) (p : PreloadState),
      (Inv n s p.rowsP p.st ∧ p.writes = solWrites n p.rowsP ∧
        ∀ i ∈ p.rowsP, (valOf n i : Int) = input (rowOf n i) (colOf n i)) →
      (Inv n s (l.foldl (fun p rc => updateForClue n s p rc.1 rc.2 (input rc.1 rc.2)) p).rowsP
          (l.foldl (fun p rc => updateForClue n s p rc.1 rc.2 (input rc.1 rc.2)) p).st ∧
        (l.foldl (fun p rc => updateForClue n s p rc.1 rc.2 (input rc.1 rc.2)) p).writes
          = solWrites n
            (l.foldl (fun p rc => updateForClue n s p rc.1 rc.2 (input rc.1 rc.2)) p).rowsP ∧
        ∀ i ∈ (l.foldl (fun p rc => updateForClue n s p rc.1 rc.2 (input rc.1 rc.2)) p).rowsP,
          (valOf n i : Int) = input (rowOf n i) (colOf n i)) := by
    intro l
    induction l with
    | nil => intro p hp; exact hp
    | cons rc l ih =>
      intro p hp
      rw [List.foldl_cons]
      exact ih _ (updateForClue_preserve hs input hp rc.1 rc.2)
  exact hgen (cellsOrder n) ⟨initializeStructure n, [], []⟩
    ⟨Inv_init n s, by simp [solWrites], by simp⟩

/-! The invariant is carried through the search to the success leaf. -/

theorem searchRows_Inv {n s : Nat} (hs : s * s = n)
    {rec : CoverState → List Nat → Option SearchOutcome}
    (hrecS : ∀ pre st sol st2 sol2, Inv n s (pre ++ sol) st →
      rec st sol = some (SearchOutcome.succeeded st2 sol2) → Inv n s (pre ++ sol2) st2)
    (hrecE : ∀ st sol st2 sol2,
      rec st sol = some (SearchOutcome.exhausted st2 sol2) → st2 = st ∧ sol2 = sol) :
    ∀ (rows : List Nat) (pre : List Nat) (st : CoverState) (sol : List Nat)
      (st2 : CoverState) (sol2 : List Nat),
      Inv n s (pre ++ sol) st → (∀ r ∈ rows, r ∈ st.liveRows) →
      searchRows n s rec st sol rows = some (SearchOutcome.succeeded st2 sol2) →
      Inv n s (pre ++ sol2) st2 := by
  intro rows
  induction rows with
  | nil =>
    intro pre st sol st2 sol2 _ _ h
    simp only [searchRows, Option.some.injEq] at h
    exact absurd h (by simp)
  | cons r rs ih =>
    intro pre st sol st2 sol2 hInv hrows h
    have hrmem : r ∈ st.liveRows := hrows r (List.mem_cons_self _ _)
    have hInv2 : Inv n s (pre ++ (sol ++ [r]))
        (removeRowsAndColumnsForGivenRow n s st r).1 := by
      rw [← List.append_assoc]
      exact Inv_cover hs hInv hrmem
    cases hre : rec (removeRowsAndColumnsForGivenRow n s st r).1 (sol ++ [r]) with
    | none => simp only [searchRows, hre] at h; exact absurd h (by simp)
    | some out =>
      cases out with
      | succeeded a b =>
        simp only [searchRows, hre, Option.some.injEq,
          SearchOutcome.succeeded.injEq] at h
        obtain ⟨ha, hb⟩ := h
        subst ha
        subst hb
        exact hrecS pre _ _ _ _ hInv2 hre
      | exhausted a b =>
        simp only [searchRows, hre] at h
        obtain ⟨ha, hb⟩ := hrecE _ _ _ _ hre
        subst ha
        subst hb
        rw [cover_uncover, List.dropLast_concat] at h
        exact ih pre st sol st2 sol2 hInv
          (fun r2 h2 => hrows r2 (List.mem_cons_of_mem _ h2)) h

theorem search_Inv (n s : Nat) (hs : s * s = n) :
    ∀ (fuel : Nat) (pre : List Nat) (st : CoverState) (sol : List Nat)
      (st2 : CoverState) (sol2 : List Nat),
      Inv n s (pre ++ sol) st →
      search n s fuel st sol = some (SearchOutcome.succeeded st2 sol2) →
      Inv n s (pre ++ sol2) st2 := by
  intro fuel
  induction fuel with
  | zero => intro pre st sol st2 sol2 _ h; simp [search] at h
  | succ f ih =>
    intro pre st sol st2 sol2 hInv h
    cases hc : st.liveCols.isEmpty with
    | true =>
      simp only [search, hc, if_true, Option.some.injEq,
        SearchOutcome.succeeded.injEq] at h
      obtain ⟨ha, hb⟩ := h
      subst ha
      subst hb
      exact hInv
    | false =>
      simp only [search, hc, if_false] at h
      exact searchRows_Inv hs (fun pre2 => ih pre2) (search_exhausted_eq n s f) _
        pre st sol st2 sol2 hInv
        (fun r2 h2 => (List.mem_filter.mp h2).1) h

theorem exactCover_of_success {n s : Nat} {sol : List Nat} {st : CoverState}
    (hInv : Inv n s sol st) (hEmpty : st.liveCols = []) : ExactCover n s sol := by
  obtain ⟨_, hCols, hBound, hPW⟩ := hInv
  refine ⟨hBound, hPW, ?_⟩
  intro j hj
  rw [hEmpty] at hCols
  have := List.filter_eq_nil.mp hCols.symm j (List.mem_range.mpr hj)
  cases hany : sol.any (fun rr => exactCoverProblem n s rr j) with
  | false => rw [hany] at this; simp at this
  | true =>
    obtain ⟨i, hi, hij⟩ := List.any_eq_true.mp hany
    exact ⟨i, hi, hij⟩

/-! Consequences of an exact cover. -/

theorem ec_unique {n s : Nat} {sol : List Nat} (hec : ExactCover n s sol)
    {a b j : Nat} (ha : a ∈ sol) (hb : b ∈ sol)
    (haj : exactCoverProblem n s a j = true)
    (hbj : exactCoverProblem n s b j = true) : a = b := by
  by_contra hne
  have hsym : Symmetric (fun a b => conflict n s a b = false) := by
    intro x y h
    rw [conflict_comm]
    exact h
  have hcf := (hec.2.1.forall hsym) ha hb hne
  have hc : conflict n s a b = true := conflict_true_iff.mpr ⟨j, haj, hbj⟩
  rw [hcf] at hc
  exact absurd hc (by simp)

theorem ec_nodup {n s : Nat} {sol : List Nat} (hec : ExactCover n s sol) :
    sol.Nodup := by
  refine hec.2.1.imp ?_
  intro a b hab heq
  subst heq
  rw [conflict_self] at hab
  exact absurd hab (by simp)

theorem ec_cell {n s : Nat} (hs : s * s = n) {sol : List Nat}
    (hec : ExactCover n s sol) {k : Nat} (hk : k < n * n) :
    ∃ i ∈ sol, cellCol n i = k ∧ ∀ i2 ∈ sol, cellCol n i2 = k → i2 = i := by
  obtain ⟨i, hi, hij⟩ := hec.2.2 k (by omega)
  have hib := hec.1 i hi
  have hcell : k = cellCol n i :=
    mem_cell_eq hs hib hk (exactCoverProblem_iff_mem.mp hij)
  refine ⟨i, hi, hcell.symm, ?_⟩
  intro i2 hi2 h2
  have hm : exactCoverProblem n s i2 (cellCol n i2) = true :=
    exactCoverProblem_iff_mem.mpr (by simp [colsList])
  rw [h2, hcell] at hm
  exact ec_unique hec hi2 hi hm
    (exactCoverProblem_iff_mem.mpr (by simp [colsList]))

/-! Reading back the output array. -/

theorem applyWrites_length :
    ∀ (ws : List (Nat × Int)) (a : List Int), (applyWrites a ws).length = a.length := by
  intro ws
  induction ws with
  | nil => intro a; rfl
  | cons w ws ih =>
    intro a
    show (applyWrites (a.set w.1 w.2) ws).length = a.length
    rw [ih, List.length_set]

theorem applyWrites_getD_not_mem :
    ∀ (ws : List (Nat × Int)) (a : List Int) (k : Nat) (d : Int),
      (∀ q ∈ ws, q.1 ≠ k) → (applyWrites a ws).getD k d = a.getD k d := by
  intro ws
  induction ws with
  | nil => intro a k d _; rfl
  | cons w ws ih =>
    intro a k d h
    show (applyWrites (a.set w.1 w.2) ws).getD k d = a.getD k d
    rw [ih _ _ _ (fun q hq => h q (List.mem_cons_of_mem _ hq))]
    rw [List.getD_eq_getElem?_getD, List.getD_eq_getElem?_getD,
      List.getElem?_set_ne (h w (List.mem_cons_self _ _))]

theorem applyWrites_getD_split (w1 : List (Nat × Int)) (k : Nat) (v : Int)
    (w2 : List (Nat × Int)) (a : List Int) (d : Int) (hk : k < a.length)
    (h2 : ∀ q ∈ w2, q.1 ≠ k) :
    (applyWrites a (w1 ++ (k, v) :: w2)).getD k d = v := by
  have h1 : applyWrites a (w1 ++ (k, v) :: w2)
      = applyWrites ((applyWrites a w1).set k v) w2 := by
    show List.foldl _ a (w1 ++ (k, v) :: w2) = _
    rw [List.foldl_append, List.foldl_cons]
    rfl
  rw [h1, applyWrites_getD_not_mem w2 _ _ _ h2, List.getD_eq_getElem?_getD,
    List.getElem?_set_self (by rw [applyWrites_length]; exact hk)]
  rfl

theorem initialSolutionArray_length (n : Nat) :
    (initialSolutionArray n).length = n * n := by
  simp [initialSolutionArray]

theorem solWrites_append (n : Nat) (l1 l2 : List Nat) :
    solWrites n (l1 ++ l2) = solWrites n l1 ++ solWrites n l2 :=
  List.map_append _ l1 l2

theorem grid_read {n s : Nat} (hs : s * s = n) {fullSol : List Nat}
    (hec : ExactCover n s fullSol) {i : Nat} (hi : i ∈ fullSol)
    {base : List Int} (hlen : base.length = n * n) :
    (applyWrites base (solWrites n fullSol)).getD (cellCol n i) (-1)
      = (valOf n i : Int) := by
  obtain ⟨l1, l2, hdecomp⟩ := List.append_of_mem hi
  have hnd : fullSol.Nodup := ec_nodup hec
  have hnotl2 : i ∉ l2 := by
    rw [hdecomp] at hnd
    exact (List.nodup_cons.mp (List.Nodup.of_append_right hnd)).1
  have hkey : ∀ q ∈ solWrites n l2, q.1 ≠ cellCol n i := by
    intro q hq
    obtain ⟨i2, hi2, hqe⟩ := List.mem_map.mp hq
    have hi2mem : i2 ∈ fullSol := by
      rw [hdecomp]
      exact List.mem_append_right l1 (List.mem_cons_of_mem _ hi2)
    rw [← hqe]
    show rowOf n i2 * n + colOf n i2 ≠ cellCol n i
    intro hks
    have hm2 : exactCoverProblem n s i2 (cellCol n i) = true := by
      rw [← hks]
      exact exactCoverProblem_iff_mem.mpr (by simp [colsList, cellCol])
    have hm1 : exactCoverProblem n s i (cellCol n i) = true :=
      exactCoverProblem_iff_mem.mpr (by simp [colsList])
    have heq : i2 = i := ec_unique hec hi2mem hi hm2 hm1
    subst heq
    exact hnotl2 hi2
  have hsplit : solWrites n fullSol
      = solWrites n l1 ++ (cellCol n i, (valOf n i : Int)) :: solWrites n l2 := by
    rw [hdecomp, solWrites_append]
    rfl
  rw [hsplit]
  exact applyWrites_getD_split _ _ _ _ _ _
    (by rw [hlen]; exact cellCol_lt (hec.1 i hi)) hkey

/-! Decoding an exact cover into grid-level facts. -/

theorem ec_cell_row {n s : Nat} (hs : s * s = n) (hn : 0 < n) {fullSol : List Nat}
    (hec : ExactCover n s fullSol) {g : List Int}
    (hg : g = applyWrites (initialSolutionArray n) (solWrites n fullSol))
    {r2 c2 : Nat} (hr2 : r2 < n) (hc2 : c2 < n) :
    ∃ i ∈ fullSol, rowOf n i = r2 ∧ colOf n i = c2 ∧
      gridCellVal n g r2 c2 = (valOf n i : Int) ∧
      (∀ i2 ∈ fullSol, cellCol n i2 = r2 * n + c2 → i2 = i) := by
  have hk : r2 * n + c2 < n * n := grid_ix_lt hr2 hc2
  obtain ⟨i, hi, hcell, huniq⟩ := ec_cell hs hec hk
  have hdig := digits_unique (colOf_lt (i := i) hn) hc2 hcell
  refine ⟨i, hi, hdig.1, hdig.2, ?_, huniq⟩
  have : gridCellVal n g r2 c2 = g.getD (cellCol n i) (-1) := by
    rw [gridCellVal, hcell]
  rw [this, hg]
  exact grid_read hs hec hi (initialSolutionArray_length n)

theorem ec_grid_row {n s : Nat} (hs : s * s = n) (hn : 0 < n) {fullSol : List Nat}
    (hec : ExactCover n s fullSol) {g : List Int}
    (hg : g = applyWrites (initialSolutionArray n) (solWrites n fullSol))
    {r2 v2 : Nat} (hr2 : r2 < n) (hv2 : v2 < n) :
    ∃ c2, c2 < n ∧ gridCellVal n g r2 c2 = (v2 : Int) ∧
      ∀ c3, c3 < n → gridCellVal n g r2 c3 = (v2 : Int) → c3 = c2 := by
  have hj : n * n + (r2 * n + v2) < 2 * (n * n) := by
    have := grid_ix_lt hr2 hv2
    omega
  obtain ⟨i, hi, hij⟩ := hec.2.2 (n * n + (r2 * n + v2)) (by omega)
  have hib := hec.1 i hi
  have hrv : n * n + (r2 * n + v2) = rowValCol n i :=
    mem_rowVal_eq hs hib (by omega) hj (exactCoverProblem_iff_mem.mp hij)
  rw [rowValCol] at hrv
  have hdig := digits_unique (valOf_lt (i := i) hn) hv2
    (by omega : rowOf n i * n + valOf n i = r2 * n + v2)
  obtain ⟨i3, hi3, hrow3, hcol3, hval3, huniq3⟩ :=
    ec_cell_row hs hn hec hg hr2 (colOf_lt (i := i) hn)
  have hii3 : i = i3 := huniq3 i hi (by rw [cellCol, hdig.1])
  refine ⟨colOf n i, colOf_lt hn, ?_, ?_⟩
  · rw [← hii3] at hval3
    rw [hval3, hdig.2]
  · intro c3 hc3 hval
    obtain ⟨i4, hi4, hrow4, hcol4, hval4, _⟩ := ec_cell_row hs hn hec hg hr2 hc3
    have hv4 : valOf n i4 = v2 := by
      rw [hval] at hval4
      exact_mod_cast hval4.symm
    have hm4 : exactCoverProblem n s i4 (n * n + (r2 * n + v2)) = true := by
      have : n * n + (r2 * n + v2) = rowValCol n i4 := by
        rw [rowValCol, hrow4, hv4, Nat.add_assoc]
      rw [this]
      exact exactCoverProblem_iff_mem.mpr (by simp [colsList])
    have : i4 = i := ec_unique hec hi4 hi hm4 hij
    rw [← hcol4, this]

theorem ec_grid_col {n s : Nat} (hs : s * s = n) (hn : 0 < n) {fullSol : List Nat}
    (hec : ExactCover n s fullSol) {g : List Int}
    (hg : g = applyWrites (initialSolutionArray n) (solWrites n fullSol))
    {c2 v2 : Nat} (hc2 : c2 < n) (hv2 : v2 < n) :
    ∃ r2, r2 < n ∧ gridCellVal n g r2 c2 = (v2 : Int) ∧
      ∀ r3, r3 < n → gridCellVal n g r3 c2 = (v2 : Int) → r3 = r2 := by
  have hj : 2 * (n * n) + (c2 * n + v2) < 3 * (n * n) := by
    have := grid_ix_lt hc2 hv2
    omega
  obtain ⟨i, hi, hij⟩ := hec.2.2 (2 * (n * n) + (c2 * n + v2)) (by omega)
  have hib := hec.1 i hi
  have hrv : 2 * (n * n) + (c2 * n + v2) = colValCol n i :=
    mem_colVal_eq hs hib (by omega) hj (exactCoverProblem_iff_mem.mp hij)
  rw [colValCol] at hrv
  have hdig := digits_unique (valOf_lt (i := i) hn) hv2
    (by omega : colOf n i * n + valOf n i = c2 * n + v2)
  obtain ⟨i3, hi3, hrow3, hcol3, hval3, huniq3⟩ :=
    ec_cell_row hs hn hec hg (rowOf_lt hib) hc2
  have hii3 : i = i3 := huniq3 i hi (by rw [cellCol, hdig.1])
  refine ⟨rowOf n i, rowOf_lt hib, ?_, ?_⟩
  · rw [← hii3] at hval3
    rw [hval3, hdig.2]
  · intro r3 hr3 hval
    obtain ⟨i4, hi4, hrow4, hcol4, hval4, _⟩ := ec_cell_row hs hn hec hg hr3 hc2
    have hv4 : valOf n i4 = v2 := by
      rw [hval] at hval4
      exact_mod_cast hval4.symm
    have hm4 : exactCoverProblem n s i4 (2 * (n * n) + (c2 * n + v2)) = true := by
      have : 2 * (n * n) + (c2 * n + v2) = colValCol n i4 := by
        rw [colValCol, hcol4, hv4, Nat.add_assoc]
      rw [this]
      exact exactCoverProblem_iff_mem.mpr (by simp [colsList])
    have : i4 = i := ec_unique hec hi4 hi hm4 hij
    rw [← hrow4, this]

theorem ec_grid_box {n s : Nat} (hs : s * s = n) (hn : 0 < n) {fullSol : List Nat}
    (hec : ExactCover n s fullSol) {g : List Int}
    (hg : g = applyWrites (initialSolutionArray n) (solWrites n fullSol))
    {b v2 : Nat} (hb : b < n) (hv2 : v2 < n) :
    ∃ r2 c2, r2 < n ∧ c2 < n ∧ (r2 / s) * s + c2 / s = b ∧
      gridCellVal n g r2 c2 = (v2 : Int) ∧
      ∀ r3 c3, r3 < n → c3 < n → (r3 / s) * s + c3 / s = b →
        gridCellVal n g r3 c3 = (v2 : Int) → r3 = r2 ∧ c3 = c2 := by
  have hj : 3 * (n * n) + (b * n + v2) < 4 * (n * n) := by
    have := grid_ix_lt hb hv2
    omega
  obtain ⟨i, hi, hij⟩ := hec.2.2 (3 * (n * n) + (b * n + v2)) (by omega)
  have hib := hec.1 i hi
  have hrv : 3 * (n * n) + (b * n + v2) = boxValCol n s i :=
    mem_boxVal_eq hs hib (by omega) (exactCoverProblem_iff_mem.mp hij)
  rw [boxValCol] at hrv
  have hdig := digits_unique (valOf_lt (i := i) hn) hv2
    (by omega : boxOf n s i * n + valOf n i = b * n + v2)
  obtain ⟨i3, hi3, hrow3, hcol3, hval3, huniq3⟩ :=
    ec_cell_row hs hn hec hg (rowOf_lt hib) (colOf_lt (i := i) hn)
  have hii3 : i = i3 := huniq3 i hi (by rw [cellCol])
  refine ⟨rowOf n i, colOf n i, rowOf_lt hib, colOf_lt hn, ?_, ?_, ?_⟩
  · have : boxOf n s i = b := hdig.1
    rw [← this, boxOf]
  · rw [← hii3] at hval3
    rw [hval3, hdig.2]
  · intro r3 c3 hr3 hc3 hbox3 hval
    obtain ⟨i4, hi4, hrow4, hcol4, hval4, _⟩ := ec_cell_row hs hn hec hg hr3 hc3
    have hv4 : valOf n i4 = v2 := by
      rw [hval] at hval4
      exact_mod_cast hval4.symm
    have hbox4 : boxOf n s i4 = b := by
      rw [boxOf, hrow4, hcol4]
      exact hbox3
    have hm4 : exactCoverProblem n s i4 (3 * (n * n) + (b * n + v2)) = true := by
      have : 3 * (n * n) + (b * n + v2) = boxValCol n s i4 := by
        rw [boxValCol, hbox4, hv4, Nat.add_assoc]
      rw [this]
      exact exactCoverProblem_iff_mem.mpr (by simp [colsList])
    have : i4 = i := ec_unique hec hi4 hi hm4 hij
    constructor
    · rw [← hrow4, this]
    · rw [← hcol4, this]

/-! Counting removed and remaining columns. -/

theorem length_filter_eq_of_nodup_iff {p : Nat → Bool} {l t : List Nat}
    (hl : l.Nodup) (ht : t.Nodup)
    (hmem : ∀ a, (a ∈ l ∧ p a = true) ↔ a ∈ t) :
    (l.filter p).length = t.length := by
  have hperm : (l.filter p).Perm t := by
    refine (List.perm_ext_iff_of_nodup (hl.filter p) ht).mpr ?_
    intro a
    rw [List.mem_filter]
    exact hmem a
  exact hperm.length_eq

theorem filter_split_length {α : Type} (p : α → Bool) :
    ∀ l : List α, (l.filter p).length + (l.filter (fun a => !(p a))).length = l.length := by
  intro l
  induction l with
  | nil => rfl
  | cons x xs ih =>
    cases h : p x <;> simp [List.filter_cons, h] <;> omega

theorem live_cols_filter_four {n s : Nat} (hs : s * s = n) {sol : List Nat}
    {st : CoverState} (hInv : Inv n s sol st) {r : Nat} (hr : r ∈ st.liveRows) :
    (st.liveCols.filter (fun j => exactCoverProblem n s r j)).length = 4 := by
  obtain ⟨hRows, hCols, _, _⟩ := hInv
  rw [hRows] at hr
  have hlt := (mem_liveRowsFor.mp hr).1
  have hnodup : st.liveCols.Nodup := by
    rw [hCols, liveColsFor]
    exact (List.nodup_range _).filter _
  have : (st.liveCols.filter (fun j => exactCoverProblem n s r j)).length
      = (colsList n s r).length := by
    refine length_filter_eq_of_nodup_iff hnodup (colsList_nodup hs hlt) ?_
    intro a
    constructor
    · intro ⟨_, hp⟩
      exact exactCoverProblem_iff_mem.mp hp
    · intro ha
      refine ⟨?_, exactCoverProblem_iff_mem.mpr ha⟩
      rw [hCols]
      exact live_cols_sub hs hr a ha
  rw [this]
  rfl

theorem cover_cols_length {n s : Nat} (hs : s * s = n) {sol : List Nat}
    {st : CoverState} (hInv : Inv n s sol st) {r : Nat} (hr : r ∈ st.liveRows) :
    (removeRowsAndColumnsForGivenRow n s st r).1.liveCols.length + 4
      = st.liveCols.length := by
  have h4 := live_cols_filter_four hs hInv hr
  have hsplit := filter_split_length (fun j => exactCoverProblem n s r j) st.liveCols
  show (keepNot st.liveCols (fun j => exactCoverProblem n s r j)).length + 4 = _
  rw [keepNot]
  omega

theorem liveColsFor_length {n s : Nat} (hs : s * s = n) :
    ∀ sol : List Nat, (∀ r ∈ sol, r < n * n * n) →
      sol.Pairwise (fun a b => conflict n s a b = false) →
      (liveColsFor n s sol).length + 4 * sol.length = 4 * (n * n) := by
  intro sol
  induction sol with
  | nil =>
    intro _ _
    simp [liveColsFor]
  | cons r sol ih =>
    intro hB hPW
    have hrB : r < n * n * n := hB r (List.mem_cons_self _ _)
    obtain ⟨hhead, htail⟩ := List.pairwise_cons.mp hPW
    have h1 : liveColsFor n s (r :: sol)
        = (liveColsFor n s sol).filter (fun j => !(exactCoverProblem n s r j)) := by
      rw [liveColsFor, liveColsFor, List.filter_filter]
      apply List.filter_congr
      intro x _
      simp [Bool.and_comm]
    have hnodup : (liveColsFor n s sol).Nodup := (List.nodup_range _).filter _
    have h4 : ((liveColsFor n s sol).filter
        (fun j => exactCoverProblem n s r j)).length = 4 := by
      have : ((liveColsFor n s sol).filter
          (fun j => exactCoverProblem n s r j)).length = (colsList n s r).length := by
        refine length_filter_eq_of_nodup_iff hnodup (colsList_nodup hs hrB) ?_
        intro a
        constructor
        · intro ⟨_, hp⟩
          exact exactCoverProblem_iff_mem.mp hp
        · intro ha
          refine ⟨mem_liveColsFor.mpr ⟨colsList_bounds hs hrB a ha, ?_⟩,
            exactCoverProblem_iff_mem.mpr ha⟩
          intro rr hrr
          cases hcase : exactCoverProblem n s rr a with
          | false => rfl
          | true =>
            have : conflict n s r rr = true := conflict_true_iff.mpr
              ⟨a, exactCoverProblem_iff_mem.mpr ha, hcase⟩
            rw [hhead rr hrr] at this
            exact absurd this (by simp)
      rw [this]
      rfl
    have hsplit := filter_split_length (fun j => exactCoverProblem n s r j)
      (liveColsFor n s sol)
    have hih := ih (fun r2 h2 => hB r2 (List.mem_cons_of_mem _ h2)) htail
    rw [h1]
    simp only [List.length_cons]
    omega

theorem preload_cols_length (n s : Nat) (hs : s * s = n)
    (input : Nat → Nat → Int) :
    (updateDoublyLinkedList n s input).st.liveCols.length
      + 4 * (updateDoublyLinkedList n s input).rowsP.length = 4 * (n * n) := by
  obtain ⟨⟨_, hCols, hB, hPW⟩, _, _⟩ := preload_preserve n s hs input
  rw [hCols]
  exact liveColsFor_length hs _ hB hPW

/-! Sharp fuel adequacy: each level of the search consumes exactly four
columns, so `liveCols.length / 4` levels of fuel suffice. -/

theorem searchRows_adequate_inv {n s B : Nat} (hs : s * s = n)
    {rec : CoverState → List Nat → Option SearchOutcome}
    (hrecA : ∀ pre st sol, Inv n s (pre ++ sol) st →
      st.liveCols.length / 4 < B → rec st sol ≠ none)
    (hrecE : ∀ st sol st2 sol2,
      rec st sol = some (SearchOutcome.exhausted st2 sol2) → st2 = st ∧ sol2 = sol) :
    ∀ (rows : List Nat) (pre : List Nat) (st : CoverState) (sol : List Nat),
      Inv n s (pre ++ sol) st → (∀ r ∈ rows, r ∈ st.liveRows) →
      st.liveCols.length / 4 ≤ B →
      searchRows n s rec st sol rows ≠ none := by
  intro rows
  induction rows with
  | nil => intro pre st sol _ _ _; simp [searchRows]
  | cons r rs ih =>
    intro pre st sol hInv hrows hlen
    have hrmem : r ∈ st.liveRows := hrows r (List.mem_cons_self _ _)
    have hInv2 : Inv n s (pre ++ (sol ++ [r]))
        (removeRowsAndColumnsForGivenRow n s st r).1 := by
      rw [← List.append_assoc]
      exact Inv_cover hs hInv hrmem
    have hlen2 := cover_cols_length hs hInv hrmem
    cases hre : rec (removeRowsAndColumnsForGivenRow n s st r).1 (sol ++ [r]) with
    | none =>
      exact absurd hre (hrecA pre _ _ hInv2 (by omega))
    | some out =>
      cases out with
      | succeeded a b => simp [searchRows, hre]
      | exhausted a b =>
        obtain ⟨ha, hb⟩ := hrecE _ _ _ _ hre
        subst ha
        subst hb
        simp only [searchRows, hre]
        rw [cover_uncover, List.dropLast_concat]
        exact ih pre st sol hInv
          (fun r2 h2 => hrows r2 (List.mem_cons_of_mem _ h2)) hlen

theorem search_adequate_inv (n s : Nat) (hs : s * s = n) :
    ∀ (fuel : Nat) (pre : List Nat) (st : CoverState) (sol : List Nat),
      Inv n s (pre ++ sol) st → st.liveCols.length / 4 < fuel →
      search n s fuel st sol ≠ none := by
  intro fuel
  induction fuel with
  | zero => intro pre st sol _ h; omega
  | succ f ih =>
    intro pre st sol hInv hlen
    cases hc : st.liveCols.isEmpty with
    | true => simp [search, hc]
    | false =>
      simp only [search, hc, if_false]
      refine searchRows_adequate_inv hs (fun pre2 => ih pre2)
        (search_exhausted_eq n s f) _ pre st sol hInv ?_ (by omega)
      intro r2 h2
      exact (List.mem_filter.mp h2).1

/-! Counting the initial live rows of each constraint column. -/

theorem encode_lt {n r c v : Nat} (hr : r < n) (hc : c < n) (hv : v < n) :
    v + n * c + n * n * r < n * n * n := by
  have h1 : v + n * c < n * n := by
    calc v + n * c < n + n * c := by omega
    _ = n * (c + 1) := by ring
    _ ≤ n * n := Nat.mul_le_mul_left n hc
  calc v + n * c + n * n * r < n * n + n * n * r := by omega
  _ = n * n * (r + 1) := by ring
  _ ≤ n * n * n := Nat.mul_le_mul_left (n * n) hr

theorem digits_split {n j : Nat} (hn : 0 < n) (hj : j < n * n) :
    j / n < n ∧ j % n < n ∧ (j / n) * n + j % n = j := by
  refine ⟨Nat.div_lt_of_lt_mul hj, Nat.mod_lt _ hn, ?_⟩
  rw [Nat.mul_comm]
  exact Nat.div_add_mod j n

theorem filter_range_length_eq (K m : Nat) (p : Nat → Bool) (e : Nat → Nat)
    (hinj : ∀ a, a < m → ∀ b, b < m → e a = e b → a = b)
    (hmem : ∀ i, (i < K ∧ p i = true) ↔ ∃ v, v < m ∧ e v = i) :
    ((List.range K).filter p).length = m := by
  have ht : ((List.range m).map e).Nodup :=
    (List.nodup_range m).map_on
      (fun x hx y hy hxy => hinj x (List.mem_range.mp hx) y (List.mem_range.mp hy) hxy)
  have hmm : ∀ a, (a ∈ List.range K ∧ p a = true) ↔ a ∈ (List.range m).map e := by
    intro a
    rw [List.mem_range, List.mem_map]
    constructor
    · intro hh
      obtain ⟨v, hv, he⟩ := (hmem a).mp hh
      exact ⟨v, List.mem_range.mpr hv, he⟩
    · intro ⟨v, hv, he⟩
      exact (hmem a).mpr ⟨v, List.mem_range.mp hv, he⟩
  rw [length_filter_eq_of_nodup_iff (List.nodup_range K) ht hmm,
    List.length_map, List.length_range]

theorem colCount_init_cell {n s : Nat} (hs : s * s = n) (hn : 0 < n) {j : Nat}
    (hj : j < n * n) : colCount n s (initializeStructure n) j = n := by
  obtain ⟨hr0, hc0, hj0⟩ := digits_split hn hj
  show ((List.range (n * n * n)).filter (fun i => exactCoverProblem n s i j)).length = n
  refine filter_range_length_eq (n * n * n) n _
    (fun v => v + n * (j % n) + n * n * (j / n))
    (fun a _ b _ h => by simp only [] at h; omega) ?_
  intro i
  constructor
  · intro ⟨hi, hp⟩
    have hcell : j = cellCol n i := mem_cell_eq hs hi hj (exactCoverProblem_iff_mem.mp hp)
    rw [cellCol] at hcell
    have hdig := digits_unique (colOf_lt (i := i) hn) hc0
      (by omega : rowOf n i * n + colOf n i = (j / n) * n + j % n)
    refine ⟨valOf n i, valOf_lt hn, ?_⟩
    have hdec := encode_decode n i
    show valOf n i + n * (j % n) + n * n * (j / n) = i
    rw [← hdig.1, ← hdig.2]
    omega
  · intro ⟨v, hv, he⟩
    subst he
    refine ⟨encode_lt hr0 hc0 hv, ?_⟩
    have h1 : cellCol n (v + n * (j % n) + n * n * (j / n)) = j := by
      rw [cellCol, rowOf_encode hv hc0, colOf_encode hv hc0, hj0]
    exact exactCoverProblem_iff_mem.mpr
      (List.mem_cons.mpr (Or.inl h1.symm))

theorem colCount_init_rowVal {n s : Nat} (hs : s * s = n) (hn : 0 < n) {j : Nat}
    (hj1 : n * n ≤ j) (hj2 : j < 2 * (n * n)) :
    colCount n s (initializeStructure n) j = n := by
  obtain ⟨hr0, hv0, hj0⟩ := digits_split hn (by omega : j - n * n < n * n)
  show ((List.range (n * n * n)).filter (fun i => exactCoverProblem n s i j)).length = n
  refine filter_range_length_eq (n * n * n) n _
    (fun c => (j - n * n) % n + n * c + n * n * ((j - n * n) / n))
    (fun a _ b _ h => by
      simp only [] at h
      have h2 : n * a = n * b := by omega
      exact Nat.eq_of_mul_eq_mul_left hn h2) ?_
  intro i
  constructor
  · intro ⟨hi, hp⟩
    have hrv : j = rowValCol n i :=
      mem_rowVal_eq hs hi hj1 hj2 (exactCoverProblem_iff_mem.mp hp)
    rw [rowValCol] at hrv
    have hdig := digits_unique (valOf_lt (i := i) hn) hv0
      (by omega : rowOf n i * n + valOf n i = ((j - n * n) / n) * n + (j - n * n) % n)
    refine ⟨colOf n i, colOf_lt hn, ?_⟩
    have hdec := encode_decode n i
    show (j - n * n) % n + n * colOf n i + n * n * ((j - n * n) / n) = i
    rw [← hdig.1, ← hdig.2]
    omega
  · intro ⟨c, hc, he⟩
    subst he
    refine ⟨encode_lt hr0 hc hv0, ?_⟩
    have h1 : rowValCol n ((j - n * n) % n + n * c + n * n * ((j - n * n) / n)) = j := by
      rw [rowValCol, rowOf_encode hv0 hc, valOf_encode hv0]
      omega
    exact exactCoverProblem_iff_mem.mpr
      (List.mem_cons.mpr (Or.inr (List.mem_cons.mpr (Or.inl h1.symm))))

theorem colCount_init_colVal {n s : Nat} (hs : s * s = n) (hn : 0 < n) {j : Nat}
    (hj1 : 2 * (n * n) ≤ j) (hj2 : j < 3 * (n * n)) :
    colCount n s (initializeStructure n) j = n := by
  obtain ⟨hc0, hv0, hj0⟩ := digits_split hn (by omega : j - 2 * (n * n) < n * n)
  show ((List.range (n * n * n)).filter (fun i => exactCoverProblem n s i j)).length = n
  refine filter_range_length_eq (n * n * n) n _
    (fun r => (j - 2 * (n * n)) % n + n * ((j - 2 * (n * n)) / n) + n * n * r)
    (fun a _ b _ h => by
      simp only [] at h
      have h2 : n * n * a = n * n * b := by omega
      exact Nat.eq_of_mul_eq_mul_left (Nat.mul_pos hn hn) h2) ?_
  intro i
  constructor
  · intro ⟨hi, hp⟩
    have hcv : j = colValCol n i :=
      mem_colVal_eq hs hi hj1 hj2 (exactCoverProblem_iff_mem.mp hp)
    rw [colValCol] at hcv
    have hdig := digits_unique (valOf_lt (i := i) hn) hv0
      (by omega : colOf n i * n + valOf n i
        = ((j - 2 * (n * n)) / n) * n + (j - 2 * (n * n)) % n)
    refine ⟨rowOf n i, rowOf_lt hi, ?_⟩
    have hdec := encode_decode n i
    show (j - 2 * (n * n)) % n + n * ((j - 2 * (n * n)) / n) + n * n * rowOf n i = i
    rw [← hdig.1, ← hdig.2]
    omega
  · intro ⟨r, hr, he⟩
    subst he
    refine ⟨encode_lt hr hc0 hv0, ?_⟩
    have h1 : colValCol n ((j - 2 * (n * n)) % n + n * ((j - 2 * (n * n)) / n) + n * n * r)
        = j := by
      rw [colValCol, colOf_encode hv0 hc0, valOf_encode hv0]
      omega
    exact exactCoverProblem_iff_mem.mpr
      (List.mem_cons.mpr (Or.inr (List.mem_cons.mpr (Or.inr
        (List.mem_cons.mpr (Or.inl h1.symm))))))

theorem colCount_init_boxVal {n s : Nat} (hs : s * s = n) (hn : 0 < n) {j : Nat}
    (hj1 : 3 * (n * n) ≤ j) (hj2 : j < 4 * (n * n)) :
    colCount n s (initializeStructure n) j = n := by
  have hspos : 0 < s := by
    rcases Nat.eq_zero_or_pos s with h | h
    · subst h; simp at hs; omega
    · exact h
  obtain ⟨hb0, hv0, hj0⟩ := digits_split hn (by omega : j - 3 * (n * n) < n * n)
  have hbn : (j - 3 * (n * n)) / n < s * s := by rw [hs]; exact hb0
  obtain ⟨hbd, hbm, hbsplit⟩ := digits_split hspos hbn
  show ((List.range (n * n * n)).filter (fun i => exactCoverProblem n s i j)).length = n
  refine filter_range_length_eq (n * n * n) n _
    (fun k => (j - 3 * (n * n)) % n
      + n * (((j - 3 * (n * n)) / n % s) * s + k % s)
      + n * n * (((j - 3 * (n * n)) / n / s) * s + k / s)) ?_ ?_
  · intro a ha b hb he
    simp only [] at he
    have hka : a < s * s := by rw [hs]; exact ha
    have hkb : b < s * s := by rw [hs]; exact hb
    obtain ⟨had, ham, hasplit⟩ := digits_split hspos hka
    obtain ⟨hbd2, hbm2, hbsplit2⟩ := digits_split hspos hkb
    have hra : ((j - 3 * (n * n)) / n / s) * s + a / s < n := Nat.lt_of_lt_of_eq (grid_ix_lt hbd had) hs
    have hrb : ((j - 3 * (n * n)) / n / s) * s + b / s < n := Nat.lt_of_lt_of_eq (grid_ix_lt hbd hbd2) hs
    have hca : ((j - 3 * (n * n)) / n % s) * s + a % s < n := Nat.lt_of_lt_of_eq (grid_ix_lt hbm ham) hs
    have hcb : ((j - 3 * (n * n)) / n % s) * s + b % s < n := Nat.lt_of_lt_of_eq (grid_ix_lt hbm hbm2) hs
    have h1 : rowOf n ((j - 3 * (n * n)) % n
        + n * (((j - 3 * (n * n)) / n % s) * s + a % s)
        + n * n * (((j - 3 * (n * n)) / n / s) * s + a / s))
        = ((j - 3 * (n * n)) / n / s) * s + a / s := rowOf_encode hv0 hca
    have h2 : rowOf n ((j - 3 * (n * n)) % n
        + n * (((j - 3 * (n * n)) / n % s) * s + b % s)
        + n * n * (((j - 3 * (n * n)) / n / s) * s + b / s))
        = ((j - 3 * (n * n)) / n / s) * s + b / s := rowOf_encode hv0 hcb
    have h3 : colOf n ((j - 3 * (n * n)) % n
        + n * (((j - 3 * (n * n)) / n % s) * s + a % s)
        + n * n * (((j - 3 * (n * n)) / n / s) * s + a / s))
        = ((j - 3 * (n * n)) / n % s) * s + a % s := colOf_encode hv0 hca
    have h4 : colOf n ((j - 3 * (n * n)) % n
        + n * (((j - 3 * (n * n)) / n % s) * s + b % s)
        + n * n * (((j - 3 * (n * n)) / n / s) * s + b / s))
        = ((j - 3 * (n * n)) / n % s) * s + b % s := colOf_encode hv0 hcb
    rw [he] at h1 h3
    rw [h2] at h1
    rw [h4] at h3
    have hdiv : a / s = b / s := by omega
    have hmod : a % s = b % s := by omega
    have da := Nat.div_add_mod a s
    have db := Nat.div_add_mod b s
    rw [hdiv, hmod] at da
    omega
  · intro i
    constructor
    · intro ⟨hi, hp⟩
      have hbv : j = boxValCol n s i :=
        mem_boxVal_eq hs hi hj1 (exactCoverProblem_iff_mem.mp hp)
      rw [boxValCol] at hbv
      have hdig := digits_unique (valOf_lt (i := i) hn) hv0
        (by omega : boxOf n s i * n + valOf n i
          = ((j - 3 * (n * n)) / n) * n + (j - 3 * (n * n)) % n)
      have hrow : rowOf n i < s * s := by rw [hs]; exact rowOf_lt hi
      have hcol : colOf n i < s * s := by rw [hs]; exact colOf_lt hn
      obtain ⟨hrd, hrm, hrsplit⟩ := digits_split hspos hrow
      obtain ⟨hcd, hcm, hcsplit⟩ := digits_split hspos hcol
      have hbox : (rowOf n i / s) * s + colOf n i / s
          = ((j - 3 * (n * n)) / n / s) * s + (j - 3 * (n * n)) / n % s := by
        have hb1 : boxOf n s i = (j - 3 * (n * n)) / n := hdig.1
        rw [boxOf] at hb1
        omega
      have hdig2 := digits_unique hcd hbm hbox
      refine ⟨(rowOf n i % s) * s + colOf n i % s, Nat.lt_of_lt_of_eq (grid_ix_lt hrm hcm) hs, ?_⟩
      have hklt : (rowOf n i % s) * s + colOf n i % s < s * s := grid_ix_lt hrm hcm
      obtain ⟨hkd, hkm, hksplit⟩ := digits_split hspos hklt
      have hdig3 := digits_unique hkm hcm hksplit
      have hdiv2 : ((rowOf n i % s) * s + colOf n i % s) / s = rowOf n i % s := hdig3.1
      have hmod2 : ((rowOf n i % s) * s + colOf n i % s) % s = colOf n i % s := hdig3.2
      have hrowarg : ((j - 3 * (n * n)) / n / s) * s
          + ((rowOf n i % s) * s + colOf n i % s) / s = rowOf n i := by
        rw [hdiv2, ← hdig2.1]
        omega
      have hcolarg : ((j - 3 * (n * n)) / n % s) * s
          + ((rowOf n i % s) * s + colOf n i % s) % s = colOf n i := by
        rw [hmod2, ← hdig2.2]
        omega
      show (j - 3 * (n * n)) % n
          + n * (((j - 3 * (n * n)) / n % s) * s
            + ((rowOf n i % s) * s + colOf n i % s) % s)
          + n * n * (((j - 3 * (n * n)) / n / s) * s
            + ((rowOf n i % s) * s + colOf n i % s) / s) = i
      rw [hrowarg, hcolarg, ← hdig.2]
      have hdec := encode_decode n i
      omega
    · intro ⟨k, hk, he⟩
      subst he
      have hklt : k < s * s := by rw [hs]; exact hk
      obtain ⟨hkd, hkm, hksplit⟩ := digits_split hspos hklt
      have hra : ((j - 3 * (n * n)) / n / s) * s + k / s < n := Nat.lt_of_lt_of_eq (grid_ix_lt hbd hkd) hs
      have hca : ((j - 3 * (n * n)) / n % s) * s + k % s < n := Nat.lt_of_lt_of_eq (grid_ix_lt hbm hkm) hs
      refine ⟨encode_lt hra hca hv0, ?_⟩
      have hrowe := rowOf_encode (n := n) (r := ((j - 3 * (n * n)) / n / s) * s + k / s)
        hv0 hca
      have hcole := colOf_encode (n := n) (r := ((j - 3 * (n * n)) / n / s) * s + k / s)
        hv0 hca
      have hvale := valOf_encode (n := n)
        (c := ((j - 3 * (n * n)) / n % s) * s + k % s)
        (r := ((j - 3 * (n * n)) / n / s) * s + k / s) hv0
      have hrowlt : ((j - 3 * (n * n)) / n / s) * s + k / s < s * s := grid_ix_lt hbd hkd
      have hcollt : ((j - 3 * (n * n)) / n % s) * s + k % s < s * s := grid_ix_lt hbm hkm
      obtain ⟨hrd2, hrm2, hrsplit2⟩ := digits_split hspos hrowlt
      obtain ⟨hcd2, hcm2, hcsplit2⟩ := digits_split hspos hcollt
      have hdigr := digits_unique hrm2 hkd hrsplit2
      have hdigc := digits_unique hcm2 hkm hcsplit2
      have h1 : boxValCol n s ((j - 3 * (n * n)) % n
          + n * (((j - 3 * (n * n)) / n % s) * s + k % s)
          + n * n * (((j - 3 * (n * n)) / n / s) * s + k / s)) = j := by
        rw [boxValCol, boxOf, hrowe, hcole, hvale, hdigr.1, hdigc.1]
        have : ((j - 3 * (n * n)) / n / s) * s + (j - 3 * (n * n)) / n % s
            = (j - 3 * (n * n)) / n := hbsplit
        rw [this]
        omega
      exact exactCoverProblem_iff_mem.mpr
        (List.mem_cons.mpr (Or.inr (List.mem_cons.mpr (Or.inr
          (List.mem_cons.mpr (Or.inr (List.mem_cons.mpr (Or.inl h1.symm))))))))

theorem init_row_wired {n s : Nat} (hs : s * s = n) {i : Nat} (hi : i < n * n * n) :
    ((initializeStructure n).liveCols.filter
      (fun j => exactCoverProblem n s i j)).length = 4 := by
  have : ((initializeStructure n).liveCols.filter
      (fun j => exactCoverProblem n s i j)).length = (colsList n s i).length := by
    refine length_filter_eq_of_nodup_iff (List.nodup_range _) (colsList_nodup hs hi) ?_
    intro a
    constructor
    · intro ⟨_, hp⟩
      exact exactCoverProblem_iff_mem.mp hp
    · intro ha
      exact ⟨List.mem_range.mpr (colsList_bounds hs hi a ha),
        exactCoverProblem_iff_mem.mpr ha⟩
  rw [this]
  rfl

/-! Composition of write passes. -/

theorem applyWrites_append (a : List Int) (w1 w2 : List (Nat × Int)) :
    applyWrites (applyWrites a w1) w2 = applyWrites a (w1 ++ w2) :=
  (List.foldl_append _ _ w1 w2).symm

/-- Claim C1, amended: whenever the engine reports Solved, the output grid
is completely filled with integers in `[0, N-1]` and every row, column and
box contains each value exactly once; and every clue that was matched
during preload is preserved in the output.  A clue silently dropped during
preload (because no live candidate matched it) is not necessarily
preserved — see the counterexample. -/
theorem claim_C1_amended (n s : Nat) (input : Nat → Nat → Int) (g : List Int)
    (hs : s * s = n) (hs1 : 1 ≤ s)
    (hrun : sudokuSolver n s input = some (EngineResult.solvedGrid g)) :
    g.length = n * n ∧
    (∀ r c, r < n → c < n → ∃ v, v < n ∧ gridCellVal n g r c = (v : Int)) ∧
    (∀ r v, r < n → v < n → ∃ c, c < n ∧ gridCellVal n g r c = (v : Int) ∧
      ∀ c2, c2 < n → gridCellVal n g r c2 = (v : Int) → c2 = c) ∧
    (∀ c v, c < n → v < n → ∃ r, r < n ∧ gridCellVal n g r c = (v : Int) ∧
      ∀ r2, r2 < n → gridCellVal n g r2 c = (v : Int) → r2 = r) ∧
    (∀ b v, b < n → v < n → ∃ r c, r < n ∧ c < n ∧ (r / s) * s + c / s = b ∧
      gridCellVal n g r c = (v : Int) ∧
      ∀ r2 c2, r2 < n → c2 < n → (r2 / s) * s + c2 / s = b →
        gridCellVal n g r2 c2 = (v : Int) → r2 = r ∧ c2 = c) ∧
    (∀ i ∈ (updateDoublyLinkedList n s input).rowsP,
      gridCellVal n g (rowOf n i) (colOf n i) = input (rowOf n i) (colOf n i)) := by
  have hn : 0 < n := by
    have h2 : 0 < s := by omega
    have := Nat.mul_pos h2 h2
    omega
  obtain ⟨hInvP, hW, hV⟩ := preload_preserve n s hs input
  cases hsr : search n s ((updateDoublyLinkedList n s input).st.liveCols.length + 1)
      (updateDoublyLinkedList n s input).st [] with
  | none =>
    simp only [sudokuSolver, hsr] at hrun
    exact absurd hrun (by simp)
  | some out =>
    cases out with
    | exhausted st2 sol2 =>
      simp only [sudokuSolver, hsr] at hrun
      exact absurd hrun (by simp)
    | succeeded st2 sol2 =>
      simp only [sudokuSolver, hsr, Option.some.injEq,
        EngineResult.solvedGrid.injEq] at hrun
      have hInv0 : Inv n s ((updateDoublyLinkedList n s input).rowsP ++ [])
          (updateDoublyLinkedList n s input).st := by
        rw [List.append_nil]
        exact hInvP
      have hInvF := search_Inv n s hs _ _ _ _ _ _ hInv0 hsr
      have hshape := search_succeeded_shape n s _ _ _ _ _ hsr
      have hec : ExactCover n s ((updateDoublyLinkedList n s input).rowsP ++ sol2) :=
        exactCover_of_success hInvF hshape.1
      have hg2 : g = applyWrites (initialSolutionArray n)
          (solWrites n ((updateDoublyLinkedList n s input).rowsP ++ sol2)) := by
        rw [← hrun, hW, applyWrites_append, solWrites_append]
      refine ⟨?_, ?_, ?_, ?_, ?_, ?_⟩
      · rw [hg2, applyWrites_length, initialSolutionArray_length]
      · intro r c hr hc
        obtain ⟨i, _, _, _, hval, _⟩ := ec_cell_row hs hn hec hg2 hr hc
        exact ⟨valOf n i, valOf_lt hn, hval⟩
      · intro r v hr hv
        exact ec_grid_row hs hn hec hg2 hr hv
      · intro c v hc hv
        exact ec_grid_col hs hn hec hg2 hc hv
      · intro b v hb hv
        exact ec_grid_box hs hn hec hg2 hb hv
      · intro i hi
        have hif : i ∈ (updateDoublyLinkedList n s input).rowsP ++ sol2 :=
          List.mem_append_left _ hi
        have hread := grid_read hs hec hif (initialSolutionArray_length n)
        have : gridCellVal n g (rowOf n i) (colOf n i)
            = g.getD (cellCol n i) (-1) := rfl
        rw [this, hg2, hread]
        exact hV i hi

set_option maxRecDepth 1000000 in
/-- Claim C1, counterexample: on a contradictory input grid (cells `(0,0)`
and `(0,1)` both clued with value 0), the engine reports Solved but the
output grid assigns cell `(0,1)` the value 1, so the given clue at `(0,1)`
is not preserved. -/
theorem claim_C1_counterexample :
    sudokuSolver 4 2 badInput
      = some (EngineResult.solvedGrid
        [0, 1, 2, 3, 2, 3, 0, 1, 1, 0, 3, 2, 3, 2, 1, 0]) ∧
    badInput 0 1 ≠ -1 ∧
    gridCellVal 4 [0, 1, 2, 3, 2, 3, 0, 1, 1, 0, 3, 2, 3, 2, 1, 0] 0 1
      ≠ badInput 0 1 := by
  refine ⟨by rfl, by decide, by decide⟩

/-- Claim C1 witness: a solved run on the 1×1 empty grid instantiates the
amended claim. -/
theorem claim_C1_amended_witness :
    sudokuSolver 1 1 emptyInput = some (EngineResult.solvedGrid [0]) ∧
    (∀ r c, r < 1 → c < 1 → ∃ v : Nat, v < 1 ∧ gridCellVal 1 [0] r c = (v : Int)) := by
  have h := claim_C1_amended 1 1 emptyInput [0] (by decide) (by decide) (by rfl)
  exact ⟨by rfl, h.2.1⟩

/-- Claim C2: covering a candidate row and immediately uncovering it
restores the cover structure exactly: same state, hence the same active
columns, the same live-count in every column, and the same ring adjacency
(both orderings).  This holds for every state and row, in particular for
every row in every reachable search state. -/
theorem claim_C2 (n s : Nat) (st : CoverState) (r : Nat) :
    restoreRowsAndColumnsForGivenRow (removeRowsAndColumnsForGivenRow n s st r).1
      (removeRowsAndColumnsForGivenRow n s st r).2 = st ∧
    (∀ j, colCount n s (restoreRowsAndColumnsForGivenRow
      (removeRowsAndColumnsForGivenRow n s st r).1
      (removeRowsAndColumnsForGivenRow n s st r).2) j = colCount n s st j) ∧
    (restoreRowsAndColumnsForGivenRow (removeRowsAndColumnsForGivenRow n s st r).1
      (removeRowsAndColumnsForGivenRow n s st r).2).liveCols = st.liveCols ∧
    (restoreRowsAndColumnsForGivenRow (removeRowsAndColumnsForGivenRow n s st r).1
      (removeRowsAndColumnsForGivenRow n s st r).2).liveRows = st.liveRows := by
  have h := cover_uncover n s st r
  exact ⟨h, fun j => by rw [h], by rw [h], by rw [h]⟩

/-- Claim C3, amended: for every input grid — contradictory clue sets
included — the engine terminates with a definite result (Solved or
no-solution) rather than crashing or looping; but a contradictory clue set
need not produce the no-solution signal, because conflicting clues are
silently dropped during preload (see the counterexample). -/
theorem claim_C3_amended (n s : Nat) (input : Nat → Nat → Int) :
    sudokuSolver n s input ≠ none := by
  cases hsr : search n s ((updateDoublyLinkedList n s input).st.liveCols.length + 1)
      (updateDoublyLinkedList n s input).st [] with
  | none => exact absurd hsr (search_adequate n s _ _ _ (by omega))
  | some out =>
    cases out with
    | succeeded st2 sol2 => simp [sudokuSolver, hsr]
    | exhausted st2 sol2 => simp [sudokuSolver, hsr]

set_option maxRecDepth 1000000 in
/-- Claim C3, counterexample: the input grid `badInput` has an internally
contradictory clue set (value 0 clued twice in row 0), yet the engine does
not report Unsatisfiable: it outputs a solved grid. -/
theorem claim_C3_counterexample :
    badInput 0 0 = 0 ∧ badInput 0 1 = 0 ∧
    sudokuSolver 4 2 badInput ≠ some EngineResult.noSolution := by
  refine ⟨by decide, by decide, by decide⟩

/-- Claim C4, amended: the search terminates on every input, with recursion
depth bounded by `N²` minus the number of clues successfully preloaded
(matched to a live candidate); clues silently dropped during preload do not
reduce the bound.  Running the search with fuel `N² - matched + 1` (one
frame per remaining choice plus the success leaf) never exhausts the fuel. -/
theorem claim_C4_amended (n s : Nat) (input : Nat → Nat → Int)
    (hs : s * s = n) (hs1 : 1 ≤ s) :
    search n s (n * n - (updateDoublyLinkedList n s input).rowsP.length + 1)
      (updateDoublyLinkedList n s input).st [] ≠ none := by
  obtain ⟨hInvP, _, _⟩ := preload_preserve n s hs input
  have hlen := preload_cols_length n s hs input
  have hInv0 : Inv n s ((updateDoublyLinkedList n s input).rowsP ++ [])
      (updateDoublyLinkedList n s input).st := by
    rw [List.append_nil]
    exact hInvP
  refine search_adequate_inv n s hs _ _ _ _ hInv0 ?_
  omega

/-- Claim C4 witness: the amended bound at the 1×1 empty grid. -/
theorem claim_C4_amended_witness :
    search 1 1 (1 * 1 - (updateDoublyLinkedList 1 1 emptyInput).rowsP.length + 1)
      (updateDoublyLinkedList 1 1 emptyInput).st [] ≠ none :=
  claim_C4_amended 1 1 emptyInput (by decide) (by decide)

set_option maxRecDepth 1000000 in
/-- Claim C4, counterexample: `badInput` is a well-formed 4×4 grid with 16
clues, so the claimed depth bound is `N² - 16 = 0` choice frames, i.e. fuel
`1` should suffice; but the search runs out at fuel 1 and needs fuel 2 (one
choice frame, for the cell whose conflicting clue was silently dropped). -/
theorem claim_C4_counterexample :
    clueCount 4 badInput = 16 ∧
    search 4 2 (4 * 4 - clueCount 4 badInput + 1)
      (updateDoublyLinkedList 4 2 badInput).st [] = none ∧
    search 4 2 (4 * 4 - clueCount 4 badInput + 2)
      (updateDoublyLinkedList 4 2 badInput).st []
      = some (SearchOutcome.succeeded ⟨[], []⟩ [5]) := by
  refine ⟨by rfl, by rfl, by rfl⟩

/-- Claim C5: for every perfect square `N = s²`, the built structure has
exactly `4N²` constraint columns, each with initial live-count exactly `N`,
and exactly `N³` candidate rows, each wired into exactly 4 columns. -/
theorem claim_C5 (n s : Nat) (hs : s * s = n) (hs1 : 1 ≤ s) :
    (initializeStructure n).liveCols.length = 4 * (n * n) ∧
    (initializeStructure n).liveRows.length = n * n * n ∧
    (∀ j ∈ (initializeStructure n).liveCols,
      colCount n s (initializeStructure n) j = n) ∧
    (∀ i ∈ (initializeStructure n).liveRows,
      ((initializeStructure n).liveCols.filter
        (fun j => exactCoverProblem n s i j)).length = 4) := by
  have hn : 0 < n := by
    have h2 : 0 < s := by omega
    have := Nat.mul_pos h2 h2
    omega
  refine ⟨by simp [initializeStructure], by simp [initializeStructure], ?_, ?_⟩
  · intro j hj
    have hj4 : j < 4 * (n * n) := List.mem_range.mp hj
    by_cases h1 : j < n * n
    · exact colCount_init_cell hs hn h1
    · by_cases h2 : j < 2 * (n * n)
      · exact colCount_init_rowVal hs hn (by omega) h2
      · by_cases h3 : j < 3 * (n * n)
        · exact colCount_init_colVal hs hn (by omega) h3
        · exact colCount_init_boxVal hs hn (by omega) hj4
  · intro i hi
    exact init_row_wired hs (List.mem_range.mp hi)

/-- Claim C5 witness: the structure counts at `N = 1`. -/
theorem claim_C5_witness :
    (initializeStructure 1).liveCols.length = 4 * (1 * 1) ∧
    (initializeStructure 1).liveRows.length = 1 * 1 * 1 ∧
    (∀ j ∈ (initializeStructure 1).liveCols,
      colCount 1 1 (initializeStructure 1) j = 1) ∧
    (∀ i ∈ (initializeStructure 1).liveRows,
      ((initializeStructure 1).liveCols.filter
        (fun j => exactCoverProblem 1 1 i j)).length = 4) :=
  claim_C5 1 1 (by decide) (by decide)

/-- Claim C6: the constraint indexer is a pure function of `(r, c, v)`: the
candidate "cell (r, c) holds v" has linear index `v + N·c + N²·r`, decodes
back to `(r, c, v)`, and is wired into exactly the four constraint columns
`r·N + c`, `N² + r·N + v`, `2N² + c·N + v`, and `3N² + b·N + v` with
`b = (r / s)·s + c / s`. -/
theorem claim_C6 (n s r c v : Nat) (hr : r < n) (hc : c < n) (hv : v < n) :
    rowOf n (v + n * c + n * n * r) = r ∧
    colOf n (v + n * c + n * n * r) = c ∧
    valOf n (v + n * c + n * n * r) = v ∧
    ∀ j, exactCoverProblem n s (v + n * c + n * n * r) j = true ↔
      (j = r * n + c ∨ j = n * n + r * n + v ∨ j = 2 * (n * n) + c * n + v ∨
        j = 3 * (n * n) + ((r / s) * s + c / s) * n + v) := by
  have h1 := rowOf_encode (n := n) (r := r) hv hc
  have h2 := colOf_encode (n := n) (r := r) hv hc
  have h3 := valOf_encode (n := n) (c := c) (r := r) hv
  refine ⟨h1, h2, h3, ?_⟩
  intro j
  rw [exactCoverProblem_iff_mem]
  simp [colsList, cellCol, rowValCol, colValCol, boxValCol, boxOf, h1, h2, h3]

/-- Claim C6 witness: the indexer at `N = 4`, `(r, c, v) = (1, 2, 3)`. -/
theorem claim_C6_witness :
    rowOf 4 (3 + 4 * 2 + 4 * 4 * 1) = 1 ∧
    colOf 4 (3 + 4 * 2 + 4 * 4 * 1) = 2 ∧
    valOf 4 (3 + 4 * 2 + 4 * 4 * 1) = 3 ∧
    ∀ j, exactCoverProblem 4 2 (3 + 4 * 2 + 4 * 4 * 1) j = true ↔
      (j = 1 * 4 + 2 ∨ j = 4 * 4 + 1 * 4 + 3 ∨ j = 2 * (4 * 4) + 2 * 4 + 3 ∨
        j = 3 * (4 * 4) + ((1 / 2) * 2 + 2 / 2) * 4 + 3) :=
  claim_C6 4 2 1 2 3 (by decide) (by decide) (by decide)

/-- Claim C7: the preload step never signals an error: when a filled cell
does not correspond to any still-live candidate row, the clue is silently
ignored — the state, the committed rows, and the recorded writes are all
left unchanged, and the preload loop continues normally. -/
theorem claim_C7 (n s : Nat) (p : PreloadState) (r c : Nat) (v : Int)
    (hv : v ≠ -1) (hfind : findClueRow n s p.st r c v = none) :
    updateForClue n s p r c v = p := by
  have hb : (v == -1) = false := by
    cases hbe : v == -1 with
    | false => rfl
    | true => exact absurd (by exact_mod_cast eq_of_beq hbe) hv
  simp only [updateForClue, hb, Bool.false_eq_true, if_false, hfind]

/-- Claim C7 witness: after preloading the clue at `(0,0)` of `badInput`,
the conflicting clue at `(0,1)` matches no live candidate and is skipped,
leaving the preload state unchanged. -/
theorem claim_C7_witness :
    badInput 0 1 ≠ -1 ∧
    findClueRow 4 2 (updateForClue 4 2 ⟨initializeStructure 4, [], []⟩ 0 0
      (badInput 0 0)).st 0 1 (badInput 0 1) = none ∧
    updateForClue 4 2 (updateForClue 4 2 ⟨initializeStructure 4, [], []⟩ 0 0
      (badInput 0 0)) 0 1 (badInput 0 1)
      = updateForClue 4 2 ⟨initializeStructure 4, [], []⟩ 0 0 (badInput 0 0) := by
  refine ⟨by decide, by rfl, claim_C7 4 2 _ 0 1 _ (by decide) (by rfl)⟩

/-- Claim C8: when a search call reports Solved, the result is propagated
unchanged to every enclosing call with no further uncovering: the returned
structure is the success-leaf structure, which is fully covered (no active
columns remain), and the returned `CURRENT_SOLUTION` extends the one at the
moment of invocation. -/
theorem claim_C8 (n s fuel : Nat) (st st2 : CoverState) (sol sol2 : List Nat)
    (h : search n s fuel st sol = some (SearchOutcome.succeeded st2 sol2)) :
    st2.liveCols = [] ∧ ∃ ext, sol2 = sol ++ ext :=
  search_succeeded_shape n s fuel st sol st2 sol2 h

/-- Claim C8 witness: a solved run on the 1×1 structure. -/
theorem claim_C8_witness :
    search 1 1 5 (initializeStructure 1) []
      = some (SearchOutcome.succeeded ⟨[], []⟩ [0]) ∧
    (CoverState.mk [] []).liveCols = [] ∧ ∃ ext, [0] = [] ++ ext := by
  have h : search 1 1 5 (initializeStructure 1) []
      = some (SearchOutcome.succeeded ⟨[], []⟩ [0]) := by rfl
  exact ⟨h, claim_C8 1 1 5 _ _ _ _ h⟩

/-- Claim C9: the column selected for branching has live-count at most that
of every other active column, and among the columns attaining the minimum
the first in construction order is selected (the active-column list of any
reachable state is ordered by construction index, which the sortedness
hypothesis expresses). -/
theorem claim_C9 (n s : Nat) (st : CoverState) (hne : st.liveCols ≠ [])
    (hsort : st.liveCols.Pairwise (fun a b => a < b)) :
    chooseProperColumn n s st ∈ st.liveCols ∧
    (∀ j ∈ st.liveCols,
      colCount n s st (chooseProperColumn n s st) ≤ colCount n s st j) ∧
    (∀ j ∈ st.liveCols,
      colCount n s st j = colCount n s st (chooseProperColumn n s st) →
      chooseProperColumn n s st ≤ j) := by
  obtain ⟨l1, l2, hdec, hl1, hl2⟩ := chooseProperColumn_spec n s st hne
  refine ⟨chooseProperColumn_mem n s st hne, chooseProperColumn_min n s st hne, ?_⟩
  intro j hj heq
  rw [hdec] at hj hsort
  rcases List.mem_append.mp hj with h | h
  · have := hl1 j h
    omega
  · rcases List.mem_cons.mp h with h | h
    · rw [h]
    · obtain ⟨_, hco, _⟩ := List.pairwise_append.mp hsort
      exact Nat.le_of_lt ((List.pairwise_cons.mp hco).1 j h)

/-- Claim C9 witness: a state with two active columns where the later one
has the smaller live-count. -/
theorem claim_C9_witness :
    chooseProperColumn 1 1 ⟨[0], [2, 5]⟩ ∈ (CoverState.mk [0] [2, 5]).liveCols ∧
    (∀ j ∈ (CoverState.mk [0] [2, 5]).liveCols,
      colCount 1 1 ⟨[0], [2, 5]⟩ (chooseProperColumn 1 1 ⟨[0], [2, 5]⟩)
        ≤ colCount 1 1 ⟨[0], [2, 5]⟩ j) ∧
    (∀ j ∈ (CoverState.mk [0] [2, 5]).liveCols,
      colCount 1 1 ⟨[0], [2, 5]⟩ j
        = colCount 1 1 ⟨[0], [2, 5]⟩ (chooseProperColumn 1 1 ⟨[0], [2, 5]⟩) →
      chooseProperColumn 1 1 ⟨[0], [2, 5]⟩ ≤ j) :=
  claim_C9 1 1 ⟨[0], [2, 5]⟩ (by decide) (by decide)

/-- Claim C10: whenever a search invocation returns failure (exhausted),
the cover structure and the `CURRENT_SOLUTION` stack at the moment of
return are exactly what they were at the moment of invocation. -/
theorem claim_C10 (n s fuel : Nat) (st st2 : CoverState) (sol sol2 : List Nat)
    (h : search n s fuel st sol = some (SearchOutcome.exhausted st2 sol2)) :
    st2 = st ∧ sol2 = sol :=
  search_exhausted_eq n s fuel st sol st2 sol2 h

/-- Claim C10 witness: an exhausted run (one active column with live-count
zero) returns the invocation state and stack unchanged. -/
theorem claim_C10_witness :
    search 4 2 1 ⟨[], [5]⟩ [] = some (SearchOutcome.exhausted ⟨[], [5]⟩ []) ∧
    (CoverState.mk [] [5]) = ⟨[], [5]⟩ ∧ ([] : List Nat) = [] := by
  have h : search 4 2 1 (⟨[], [5]⟩ : CoverState) []
      = some (SearchOutcome.exhausted ⟨[], [5]⟩ []) := by rfl
  exact ⟨h, claim_C10 4 2 1 _ _ _ _ h⟩

end SudokuDLX
